import Mathlib

/-
Verification of the request-parameter marshaling helper
`core/ParameterBuilder.go` of the jdcloud-sdk-go vendored in this repository.

Modelling conventions:
* Go strings are modelled as `List Char` (`GoStr`); the inputs of interest are
  ASCII, so a `Char` stands for one byte.
* Go `map[string]interface{}` values decoded from JSON are modelled by the
  mutual inductives `JVal`/`JArr`/`JObj` below; map iteration order is modelled
  by the entry order of a `JObj`.
* JSON numbers decode to Go `float64`; floating point is abstracted: a
  `JVal.num` carries the text that Go's default `%v` formatting would print
  for the value (e.g. "3" for 3).
* Fallible Go functions returning `(string, error)` are modelled as
  `GoStr × Option GoStr`, the second component being the error message.
-/

/-- A Go (byte) string, modelled as a list of characters (ASCII). -/
abbrev GoStr := List Char

/-- Shorthand for writing `GoStr` literals. -/
def gs (s : String) : GoStr := s.toList

/-- Test in the style of Go strings.HasPrefix: does `s` start with `pat`? -/
def startsWithStr : GoStr → GoStr → Bool
  | [], _ => true
  | _ :: _, [] => false
  | p :: ps, c :: cs => p = c && startsWithStr ps cs

/-- Go `strings.Contains s pat`: `pat` occurs as a contiguous substring of `s`. -/
def containsStr : GoStr → GoStr → Bool
  | [], pat => startsWithStr pat []
  | c :: rest, pat => startsWithStr pat (c :: rest) || containsStr rest pat

/-- Split at the first occurrence of `c`: `(before, after)`; if `c` does not
occur, `(s, [])` (the behaviour of Go `strings.Cut`, dropping the separator). -/
def splitAtFirst (c : Char) : GoStr → GoStr × GoStr
  | [] => ([], [])
  | x :: xs =>
    if x = c then ([], xs)
    else
      let r := splitAtFirst c xs
      (x :: r.1, r.2)

/-- Go `strings.Split s (String c)`: split on every occurrence of `c`. -/
def splitOnChar (c : Char) : GoStr → List GoStr
  | [] => [[]]
  | x :: xs =>
    if x = c then [] :: splitOnChar c xs
    else
      match splitOnChar c xs with
      | h :: t => (x :: h) :: t
      | [] => [[x]]

/-- Go `strings.Join parts sep`. -/
def joinSep (sep : GoStr) : List GoStr → GoStr
  | [] => []
  | [x] => x
  | x :: xs => x ++ sep ++ joinSep sep xs

/-- Go `strings.TrimLeft s "\x7b"`: drop every leading `{`. -/
def trimLeftBrace (s : GoStr) : GoStr := s.dropWhile (fun c => c = '\x7b')

/-- Go `strings.TrimRight s "\x7d"`: drop every trailing `}`. -/
def trimRightBrace (s : GoStr) : GoStr :=
  (s.reverse.dropWhile (fun c => c = '\x7d')).reverse

/-- Inner loop of `strings.Replace s pat rep -1`. The fuel argument starts at
`s.length`; every step consumes at least one character of `s` (the pattern is
non-empty), so the fuel never runs out and only makes the recursion structural. -/
def replaceAllGo (pat rep : GoStr) : Nat → GoStr → GoStr
  | _, [] => []
  | 0, s => s
  | fuel + 1, c :: rest =>
    if startsWithStr pat (c :: rest) then
      rep ++ replaceAllGo pat rep fuel ((c :: rest).drop pat.length)
    else
      c :: replaceAllGo pat rep fuel rest

/-- Go `strings.Replace s pat rep -1`: replace every non-overlapping occurrence
of `pat`, left to right. (The callers in this file never pass an empty
pattern, for which Go would instead insert `rep` between characters.) -/
def replaceAll (s pat rep : GoStr) : GoStr :=
  if pat = [] then s else replaceAllGo pat rep s.length s

/-- Character class of the path-placeholder pattern `[a-zA-Z0-9-_]`. -/
def isWordChar (c : Char) : Bool :=
  ('a' ≤ c && c ≤ 'z') || ('A' ≤ c && c ≤ 'Z') || ('0' ≤ c && c ≤ '9') ||
    c = '-' || c = '_'

/-- Single-pass scanner equivalent to Go
`regexp.FindAllString` for the pattern `\x7b[a-zA-Z0-9-_]+\x7d`: leftmost,
non-overlapping matches. The state carries the reversed run of word characters
read since the most recent unclosed `{`, if any. -/
def findMatchesGo : GoStr → Option GoStr → List GoStr
  | [], _ => []
  | c :: rest, none =>
    if c = '\x7b' then findMatchesGo rest (some [])
    else findMatchesGo rest none
  | c :: rest, some run =>
    if c = '\x7d' then
      if run = [] then findMatchesGo rest none
      else ('\x7b' :: run.reverse ++ ['\x7d']) :: findMatchesGo rest none
    else if c = '\x7b' then findMatchesGo rest (some [])
    else if isWordChar c then findMatchesGo rest (some (c :: run))
    else findMatchesGo rest none

/-- All matches of the placeholder pattern `\x7b[a-zA-Z0-9-_]+\x7d` in `s`
(with braces), leftmost and non-overlapping, as Go's `FindAllString` returns. -/
def findMatches (s : GoStr) : List GoStr := findMatchesGo s none

/-! ### URL escaping, unescaping and parsing (Go `net/url`, modelled) -/

/-- Uppercase hexadecimal digit, as Go's URL escaping uses. -/
def hexUpper (n : Nat) : Char :=
  (gs "0123456789ABCDEF").getD n '0'

/-- Percent escape, %XX, of one (ASCII) byte. -/
def percentHex (c : Char) : GoStr :=
  ['%', hexUpper (c.toNat / 16 % 16), hexUpper (c.toNat % 16)]

/-- Hex digit test of Go `net/url` (`ishex`). -/
def isHexDigit (c : Char) : Bool :=
  ('0' ≤ c && c ≤ '9') || ('a' ≤ c && c ≤ 'f') || ('A' ≤ c && c ≤ 'F')

/-- Hex digit value (Go `unhex`). -/
def unhexVal (c : Char) : Nat :=
  if '0' ≤ c && c ≤ '9' then c.toNat - '0'.toNat
  else if 'a' ≤ c && c ≤ 'f' then c.toNat - 'a'.toNat + 10
  else if 'A' ≤ c && c ≤ 'F' then c.toNat - 'A'.toNat + 10
  else 0

/-- Go `net/url` percent-unescaping (ASCII-byte model): `%XX` decodes to the
byte `XX` and an incomplete or non-hex escape is an error (`none`); when
`plusToSpace` is true (query components), `+` decodes to a space. -/
def unescapeGo (plusToSpace : Bool) : GoStr → Option GoStr
  | [] => some []
  | c :: rest =>
    if c = '%' then
      match rest with
      | h1 :: h2 :: rest2 =>
        if isHexDigit h1 && isHexDigit h2 then
          (unescapeGo plusToSpace rest2).map
            (fun t => Char.ofNat (unhexVal h1 * 16 + unhexVal h2) :: t)
        else none
      | _ => none
    else if c = '+' then
      (unescapeGo plusToSpace rest).map
        (fun t => (if plusToSpace then ' ' else '+') :: t)
    else (unescapeGo plusToSpace rest).map (fun t => c :: t)

/-- Unescaping in path mode (`+` kept literal). -/
def pathUnescape (s : GoStr) : Option GoStr := unescapeGo false s

/-- Go `url.QueryUnescape` (`+` becomes a space). -/
def queryUnescape (s : GoStr) : Option GoStr := unescapeGo true s

/-- Characters that Go `url.QueryEscape` leaves bare: alphanumerics and
`-` `_` `.` `~`. -/
def queryNoEscape (c : Char) : Bool :=
  ('a' ≤ c && c ≤ 'z') || ('A' ≤ c && c ≤ 'Z') || ('0' ≤ c && c ≤ '9') ||
    c = '-' || c = '_' || c = '.' || c = '~'

/-- Go `url.QueryEscape` (ASCII-byte model): space becomes `+`, unreserved
characters stay, everything else becomes `%XX`. -/
def queryEscape (s : GoStr) : GoStr :=
  s.foldr
    (fun c acc =>
      (if queryNoEscape c then [c] else if c = ' ' then ['+'] else percentHex c)
        ++ acc)
    []

/-- Modelled from the spec: `EscapePath` is defined in the SDK core outside the
provided sources; per the spec it percent-escapes the path per standard URL
path-escaping, leaving `/` bare when `encodeSep` is false and unreserved
characters (alphanumerics, `-` `.` `_` `~`) bare. -/
def EscapePath (path : GoStr) (encodeSep : Bool) : GoStr :=
  path.foldr
    (fun c acc =>
      (if queryNoEscape c || (c = '/' && !encodeSep) then [c] else percentHex c)
        ++ acc)
    []

/-- Go `url.Values`, modelled as an association list from key to the values
seen for that key, keyed in first-seen order (the map's key order is
irrelevant: encoding sorts the keys). -/
abbrev UrlValues := List (GoStr × List GoStr)

/-- Add one key/value pair to a `UrlValues` (Go `m[key] = append(m[key], value)`). -/
def valuesAdd (vs : UrlValues) (k v : GoStr) : UrlValues :=
  match vs with
  | [] => [(k, [v])]
  | (k', l) :: rest =>
    if k' = k then (k', l ++ [v]) :: rest else (k', l) :: valuesAdd rest k v

/-- One loop step of Go `url.ParseQuery` (errors discarded, as `URL.Query()`
uses it): drop an empty piece, a piece containing `;`, or a piece whose key or
value fails to unescape; otherwise split at the first `=` and add the pair. -/
def parseQueryStep (acc : UrlValues) (piece : GoStr) : UrlValues :=
  if containsStr piece (gs ";") then acc
  else if piece = [] then acc
  else
    let kv := splitAtFirst '=' piece
    match queryUnescape kv.1, queryUnescape kv.2 with
    | some k, some v => valuesAdd acc k v
    | _, _ => acc

/-- Go `url.ParseQuery` with errors discarded: split the raw query on `&` and
process the pieces in order. -/
def parseQueryValues (query : GoStr) : UrlValues :=
  (splitOnChar '&' query).foldl parseQueryStep []

/-- Byte-wise lexicographic `<` on Go strings (ASCII model). -/
def goStrLtB : GoStr → GoStr → Bool
  | [], [] => false
  | [], _ :: _ => true
  | _ :: _, [] => false
  | a :: as, b :: bs => a.toNat < b.toNat || (a = b && goStrLtB as bs)

/-- The order goStrLeB derived from goStrLtB. -/
def goStrLeB (a b : GoStr) : Bool := !goStrLtB b a

/-- Insert into a list sorted by `le` (used to model Go's `sort.Strings`). -/
def insertLe (le : α → α → Bool) (x : α) : List α → List α
  | [] => [x]
  | y :: ys => if le x y then x :: y :: ys else y :: insertLe le x ys

/-- Insertion sort by `le` (used to model Go's `sort.Strings`). -/
def insortLe (le : α → α → Bool) : List α → List α
  | [] => []
  | x :: xs => insertLe le x (insortLe le xs)

/-- Go `url.Values.Encode`: sort the keys, escape each key and value, join the
pairs with `&`. -/
def valuesEncode (vs : UrlValues) : GoStr :=
  joinSep ['&']
    ((insortLe (fun a b => goStrLeB a.1 b.1) vs).flatMap
      (fun kv => kv.2.map (fun v => queryEscape kv.1 ++ '=' :: queryEscape v)))

/-- Go `url.Values.Get`: first value for the key, empty if absent. -/
def valuesGet (vs : UrlValues) (k : GoStr) : GoStr :=
  match vs with
  | [] => []
  | (k', l) :: rest => if k' = k then l.headD [] else valuesGet rest k

/-- ASCII control byte (Go `net/url` rejects these in a URL). -/
def isCtlChar (c : Char) : Bool := c.toNat < 0x20 || c.toNat = 0x7f

/-- Modelled from Go `net/url.Parse`, restricted to the URL shapes this
package produces (no scheme and no `//` authority prefix): reject control
characters, drop the fragment after the first `#`, split the query off at the
first `?`, and percent-unescape the remainder as the path (`none` on an
invalid escape, matching Go's parse error). Returns `(path, rawQuery)`. -/
def urlParse (s : GoStr) : Option (GoStr × GoStr) :=
  if s.any isCtlChar then none
  else
    let noFrag := (splitAtFirst '#' s).1
    let pq := splitAtFirst '?' noFrag
    (pathUnescape pq.1).map (fun p => (p, pq.2))

/-- The function encodeUrl of ParameterBuilder.go: parse the URL, re-escape the path
(`EscapePath` with `/` kept, whose output `URL.EscapedPath()` returns since it
is a valid encoding of the path), re-encode the query with the standard
encoder, and reattach it with `?` when non-empty. Errors are returned as
`("", err)`. -/
def encodeUrl (requestUrl : GoStr) : GoStr × Option GoStr :=
  match urlParse requestUrl with
  | none => ([], some (gs "invalid URL"))
  | some pr =>
    let uri := EscapePath pr.1 false
    let queryParam := valuesEncode (parseQueryValues pr.2)
    (if queryParam ≠ [] then uri ++ '?' :: queryParam else uri, none)

/-- Standard re-parsing of a built URL, as Go `url.Parse(u).Query().Get(k)`
does: parse, then return the first query value recorded for the key. -/
def reparseQueryGet (u k : GoStr) : Option GoStr :=
  (urlParse u).map (fun pr => valuesGet (parseQueryValues pr.2) k)

/-! ### JSON values decoded into `map[string]interface{}` -/

mutual
/-- A JSON value as Go `json.Unmarshal` decodes it into `interface{}`:
`nil`, `bool`, `float64` (abstracted to its `%v` text), `string`,
`[]interface{}` or `map[string]interface{}`. -/
inductive JVal : Type where
  | null : JVal
  | bool : Bool → JVal
  | num : GoStr → JVal
  | str : GoStr → JVal
  | arr : JArr → JVal
  | obj : JObj → JVal

/-- A decoded JSON array (`[]interface{}`). -/
inductive JArr : Type where
  | nil : JArr
  | cons : JVal → JArr → JArr

/-- A decoded JSON object (`map[string]interface{}`); entry order models the
map's iteration order. -/
inductive JObj : Type where
  | nil : JObj
  | cons : GoStr → JVal → JObj → JObj
end

/-- Build a `JArr` from a list of values. -/
def jarr : List JVal → JArr
  | [] => .nil
  | v :: vs => .cons v (jarr vs)

/-- Build a `JObj` from a list of entries. -/
def jobj : List (GoStr × JVal) → JObj
  | [] => .nil
  | (k, v) :: rest => .cons k v (jobj rest)

/-- Go map lookup `paramMap[field]` (decoded objects have distinct keys). -/
def jobjLookup (field : GoStr) : JObj → Option JVal
  | .nil => none
  | .cons k v rest => if k = field then some v else jobjLookup field rest

/-- The keys of a decoded object, in entry order. -/
def jobjKeys : JObj → List GoStr
  | .nil => []
  | .cons k _ rest => k :: jobjKeys rest

/-- Go `%v` text of a `bool`. -/
def goBoolStr (b : Bool) : GoStr := if b then gs "true" else gs "false"

/-- Sort rendered map entries by raw key, as Go `fmt` prints maps
(`fmtsort`) and `encoding/json` marshals them. -/
def sortByKey (ps : List (GoStr × GoStr)) : List (GoStr × GoStr) :=
  insortLe (fun a b => goStrLeB a.1 b.1) ps

mutual
/-- Go `fmt.Sprintf "%v"` of a decoded JSON value (default formatting):
`<nil>` for `nil`, `true`/`false`, the number text, the bare string,
`[e1 e2 ...]` for slices and `map[k1:v1 k2:v2]` (keys sorted) for maps. -/
def goV : JVal → GoStr
  | .null => gs "<nil>"
  | .bool b => goBoolStr b
  | .num r => r
  | .str s => s
  | .arr es => '[' :: joinSep [' '] (goVArr es) ++ [']']
  | .obj fs =>
    gs "map[" ++
      joinSep [' '] ((sortByKey (goVObj fs)).map (fun p => p.1 ++ ':' :: p.2))
      ++ [']']

/-- The %v texts of the elements of a slice. -/
def goVArr : JArr → List GoStr
  | .nil => []
  | .cons v rest => goV v :: goVArr rest

/-- Key and %v-text pairs of a map's entries, before key sorting. -/
def goVObj : JObj → List (GoStr × GoStr)
  | .nil => []
  | .cons k v rest => (k, goV v) :: goVObj rest
end

mutual
/-- Go `fmt.Sprintf "%s"` of a decoded JSON value: strings print bare, any
non-string scalar prints the `%!s(type=value)` verb-mismatch form, and
containers print their elements with `%s` again. -/
def goS : JVal → GoStr
  | .null => gs "%!s(<nil>)"
  | .bool b => gs "%!s(bool=" ++ goBoolStr b ++ [')']
  | .num r => gs "%!s(float64=" ++ r ++ [')']
  | .str s => s
  | .arr es => '[' :: joinSep [' '] (goSArr es) ++ [']']
  | .obj fs =>
    gs "map[" ++
      joinSep [' '] ((sortByKey (goSObj fs)).map (fun p => p.1 ++ ':' :: p.2))
      ++ [']']

/-- The %s texts of the elements of a slice. -/
def goSArr : JArr → List GoStr
  | .nil => []
  | .cons v rest => goS v :: goSArr rest

/-- Key and %s-text pairs of a map's entries, before key sorting. -/
def goSObj : JObj → List (GoStr × GoStr)
  | .nil => []
  | .cons k v rest => (k, goS v) :: goSObj rest
end

/-- Go `encoding/json` string quoting (ASCII model): `"` and `\` are
backslash-escaped, newline/carriage-return/tab use their short escapes, other
control bytes use `\u00XX`, and `<` `>` `&` are HTML-escaped as `<`
`>` `&` (the encoder's default). -/
def jsonQuote (s : GoStr) : GoStr :=
  '"' ::
    s.foldr
      (fun c acc =>
        (if c = '"' then gs "\\\""
         else if c = '\\' then gs "\\\\"
         else if c = '\n' then gs "\\n"
         else if c = '\r' then gs "\\r"
         else if c = '\t' then gs "\\t"
         else if c = '<' then gs "\\u003c"
         else if c = '>' then gs "\\u003e"
         else if c = '&' then gs "\\u0026"
         else if c.toNat < 0x20 then
           gs "\\u00" ++ [hexUpper (c.toNat / 16), hexUpper (c.toNat % 16)]
         else [c]) ++ acc)
      [] ++ ['"']

mutual
/-- Go `json.Marshal` of a decoded JSON value (ASCII model; the `float64`
encoding is abstracted to the number's stored text): `null`, `true`/`false`,
quoted strings, `[...]` arrays, and objects with their keys sorted, as the
encoder does for maps. -/
def jsonMarshal : JVal → GoStr
  | .null => gs "null"
  | .bool b => goBoolStr b
  | .num r => r
  | .str s => jsonQuote s
  | .arr es => '[' :: joinSep [','] (jsonMarshalArr es) ++ [']']
  | .obj fs =>
    '\x7b' ::
      joinSep [',']
        ((sortByKey (jsonMarshalObj fs)).map
          (fun p => jsonQuote p.1 ++ ':' :: p.2))
      ++ ['\x7d']

/-- Marshalled texts of the elements of an array. -/
def jsonMarshalArr : JArr → List GoStr
  | .nil => []
  | .cons v rest => jsonMarshal v :: jsonMarshalArr rest

/-- Raw-key and marshalled-value pairs of an object, before key sorting. -/
def jsonMarshalObj : JObj → List (GoStr × GoStr)
  | .nil => []
  | .cons k v rest => (k, jsonMarshal v) :: jsonMarshalObj rest
end

/-! ### ParameterBuilder.go

`baseRequestFields` is computed at process start by reflecting over the
`JDCloudRequest` envelope type, which lives outside the provided sources; per
the spec it is an opaque set of field-name strings, so every function below
takes it as the explicit parameter `base`. The `json.Unmarshal` step of the
builders is modelled by passing the already-decoded object; its error path
(malformed JSON returns `("", err)`) is not needed by the claims about decoded
bags. The `Logger` collaborator only produces side effects and is dropped. -/

/-- Modelled from the spec: the SDK's `includes` helper (defined outside the
provided sources) is membership of a string in a string list. -/
def includes (l : List GoStr) (k : GoStr) : Bool := l.contains k

/-- The function shouldIgnoreField: a field is ignored when its `\x7bfield\x7d` placeholder
occurs in the URL template or the field belongs to `baseRequestFields`. -/
def shouldIgnoreField (base : List GoStr) (url field : GoStr) : Bool :=
  containsStr url ('\x7b' :: field ++ ['\x7d']) || includes base field

mutual
/-- The function accessMap: flatten a decoded object into `key=value` strings, appended
to `resultList`. Ignored fields are skipped; an array field is flattened
element-wise by `accessMapArr`; a `nil` field emits nothing; any other value
emits `prefix + key + "=" + %v-text`. -/
def accessMap (base : List GoStr) (m : JObj) (url pre : GoStr)
    (resultList : List GoStr) : List GoStr :=
  match m with
  | .nil => resultList
  | .cons k v rest =>
    if shouldIgnoreField base url k then accessMap base rest url pre resultList
    else
      match v with
      | .arr es =>
        accessMap base rest url pre (accessMapArr base k url pre es 1 resultList)
      | .null => accessMap base rest url pre resultList
      | _ =>
        accessMap base rest url pre (resultList ++ [pre ++ k ++ '=' :: goV v])

/-- The inner `for i, n := range e` loop of `accessMap` over an array field
`k`; `i` is the 1-based index (the Go loop counts from 0 and uses `i+1`).
An object element recurses with the fresh prefix `k.i.` (the surrounding
prefix is not kept); a `nil` element emits nothing; a scalar element emits
`prefix + k + "." + i + "=" + %s-text`. -/
def accessMapArr (base : List GoStr) (k url pre : GoStr) (es : JArr) (i : Nat)
    (resultList : List GoStr) : List GoStr :=
  match es with
  | .nil => resultList
  | .cons n rest =>
    match n with
    | .obj f =>
      accessMapArr base k url pre rest (i + 1)
        (accessMap base f url (k ++ '.' :: Nat.toDigits 10 i ++ ['.']) resultList)
    | .null => accessMapArr base k url pre rest (i + 1) resultList
    | _ =>
      accessMapArr base k url pre rest (i + 1)
        (resultList ++ [pre ++ k ++ '.' :: Nat.toDigits 10 i ++ '=' :: goS n])
end

/-- The function buildQueryParams: join the flattened pairs with an ampersand. -/
def buildQueryParams (base : List GoStr) (paramMap : JObj) (url : GoStr) : GoStr :=
  joinSep ['&'] (accessMap base paramMap url [] [])

/-- The `for _, match := range matches` loop of `replaceUrlWithPathParam`:
trim the braces off the match, look the field up in the bag — absence is the
error `Can not find path parameter: <field>` with an empty result — and
replace every occurrence of the placeholder with the value's `%v` text. -/
def replLoop (ms : List GoStr) (url : GoStr) (paramMap : JObj) :
    GoStr × Option GoStr :=
  match ms with
  | [] => (url, none)
  | mtc :: rest =>
    let field := trimRightBrace (trimLeftBrace mtc)
    match jobjLookup field paramMap with
    | none => ([], some (gs "Can not find path parameter: " ++ field))
    | some v => replLoop rest (replaceAll url mtc (goV v)) paramMap

/-- The function replaceUrlWithPathParam: substitute every `\x7bname\x7d` placeholder the
pattern scan finds. -/
def replaceUrlWithPathParam (url : GoStr) (paramMap : JObj) :
    GoStr × Option GoStr :=
  replLoop (findMatches url) url paramMap

/-- Method BuildURL of WithBodyBuilder: substitute path parameters, then re-encode;
errors return `("", err)` (which `encodeUrl` already yields on its own error). -/
def WithBodyBuilder.BuildURL (url : GoStr) (paramMap : JObj) :
    GoStr × Option GoStr :=
  match replaceUrlWithPathParam url paramMap with
  | (_, some e) => ([], some e)
  | (replacedUrl, none) => encodeUrl replacedUrl

/-- The `delete(paramMap, k)` loop of `WithBodyBuilder.BuildBody`: remove
every base-request field from the decoded bag. -/
def removeBaseFields (base : List GoStr) : JObj → JObj
  | .nil => .nil
  | .cons k v rest =>
    if includes base k then removeBaseFields base rest
    else .cons k v (removeBaseFields base rest)

/-- Method BuildBody of WithBodyBuilder: drop the base-request fields and marshal the
rest (the marshal error is discarded in the source; no error is returned). -/
def WithBodyBuilder.BuildBody (base : List GoStr) (paramMap : JObj) :
    GoStr × Option GoStr :=
  (jsonMarshal (.obj (removeBaseFields base paramMap)), none)

/-- Method BuildURL of WithoutBodyBuilder: substitute path parameters, append the
flattened query with `?` when non-empty, then re-encode. -/
def WithoutBodyBuilder.BuildURL (base : List GoStr) (url : GoStr)
    (paramMap : JObj) : GoStr × Option GoStr :=
  match replaceUrlWithPathParam url paramMap with
  | (_, some e) => ([], some e)
  | (resultUrl, none) =>
    let queryParams := buildQueryParams base paramMap url
    encodeUrl (if queryParams ≠ [] then resultUrl ++ '?' :: queryParams else resultUrl)

/-- Method BuildBody of WithoutBodyBuilder returns `("", nil)` without reading its
input (the raw, possibly malformed, JSON bytes). -/
def WithoutBodyBuilder.BuildBody (_paramJson : GoStr) : GoStr × Option GoStr :=
  ([], none)

/-- The two builder strategies `GetParameterBuilder` chooses between. -/
inductive BuilderKind : Type where
  | withoutBody : BuilderKind
  | withBody : BuilderKind
deriving DecidableEq

/-- The function GetParameterBuilder: `WithoutBodyBuilder` for GET/DELETE/HEAD, otherwise
`WithBodyBuilder`. Modelled from the spec: the `MethodGet`, `MethodDelete`
and `MethodHead` constants live outside the provided sources and are the
method names "GET", "DELETE" and "HEAD". -/
def GetParameterBuilder (method : GoStr) : BuilderKind :=
  if method = gs "GET" ∨ method = gs "DELETE" ∨ method = gs "HEAD" then
    .withoutBody
  else
    .withBody

/-- A bag all of whose fields are strings, as an entry list. -/
def strEntries (entries : List (GoStr × GoStr)) : List (GoStr × JVal) :=
  entries.map (fun p => (p.1, JVal.str p.2))

/-! ### String-processing lemmas -/

/-- A character of a template that substitution, parsing and path escaping all
leave alone: unreserved (alphanumeric, `-` `.` `_` `~`) or `/`. -/
def plainPathChar (c : Char) : Bool := queryNoEscape c || c = '/'

/-- The concrete alphabet of plain path characters, for stating claims over
arbitrary templates with decidable side conditions. -/
def pathPlainChars : GoStr :=
  gs "abcdefghijklmnopqrstuvwxyzABCDEFGHIJKLMNOPQRSTUVWXYZ0123456789-._~/"

/-- The concrete alphabet of ASCII alphanumerics. -/
def alnumChars : GoStr :=
  gs "abcdefghijklmnopqrstuvwxyzABCDEFGHIJKLMNOPQRSTUVWXYZ0123456789"

/-- A matched pattern only uses characters of the searched string. -/
theorem startsWithStr_subset :
    ∀ {pat s : GoStr}, startsWithStr pat s = true → ∀ c ∈ pat, c ∈ s := by
  intro pat
  induction pat with
  | nil => intro s _ c hc; cases hc
  | cons p ps ih =>
    intro s h c hc
    cases s with
    | nil => simp [startsWithStr] at h
    | cons x xs =>
      simp only [startsWithStr, Bool.and_eq_true, decide_eq_true_eq] at h
      rcases List.mem_cons.mp hc with hc | hc
      · exact hc ▸ h.1 ▸ List.mem_cons_self _ _
      · exact List.mem_cons_of_mem _ (ih h.2 c hc)

/-- If some character of the pattern does not occur in `s`, the pattern is not
a substring of `s`. -/
theorem containsStr_eq_false {s pat : GoStr} {c : Char}
    (hc : c ∈ pat) (hs : c ∉ s) : containsStr s pat = false := by
  induction s with
  | nil =>
    cases pat with
    | nil => cases hc
    | cons p ps => simp [containsStr, startsWithStr]
  | cons x xs ih =>
    have hx : c ∉ xs := fun h => hs (List.mem_cons_of_mem _ h)
    simp only [containsStr, Bool.or_eq_false_iff]
    refine ⟨?_, ih hx⟩
    cases h : startsWithStr pat (x :: xs) with
    | false => rfl
    | true => exact absurd (startsWithStr_subset h c hc) hs

/-- A string is a prefix of itself followed by anything. -/
theorem startsWithStr_refl_append : ∀ p t : GoStr, startsWithStr p (p ++ t) = true := by
  intro p
  induction p with
  | nil => intro t; rfl
  | cons x xs ih => intro t; simp [startsWithStr, ih]

/-- The empty pattern occurs in every string. -/
theorem containsStr_nil_pat (s : GoStr) : containsStr s [] = true := by
  cases s <;> simp [containsStr, startsWithStr]

/-- The pattern occurs in any string having it as a contiguous part. -/
theorem containsStr_of_parts (a pat b : GoStr) :
    containsStr (a ++ pat ++ b) pat = true := by
  induction a with
  | nil =>
    cases pat with
    | nil => simpa using containsStr_nil_pat b
    | cons p ps =>
      have h : startsWithStr (p :: ps) (p :: (ps ++ b)) = true :=
        startsWithStr_refl_append (p :: ps) b
      simp [containsStr, h]
  | cons x xs ih =>
    have e : (x :: xs) ++ pat ++ b = x :: (xs ++ pat ++ b) := by simp
    rw [e]
    simp only [containsStr, ih, Bool.or_true]

/-- Splitting at a character that does not occur returns the whole string. -/
theorem splitAtFirst_not_mem {c : Char} {s : GoStr} (h : c ∉ s) :
    splitAtFirst c s = (s, []) := by
  induction s with
  | nil => rfl
  | cons x xs ih =>
    have hx : ¬x = c := fun e => h (e ▸ List.mem_cons_self _ _)
    have hxs : c ∉ xs := fun m => h (List.mem_cons_of_mem _ m)
    simp [splitAtFirst, hx, ih hxs]

/-- Splitting at the first separator occurrence. -/
theorem splitAtFirst_append {c : Char} {a : GoStr} (b : GoStr) (h : c ∉ a) :
    splitAtFirst c (a ++ c :: b) = (a, b) := by
  induction a with
  | nil => simp [splitAtFirst]
  | cons x xs ih =>
    have hx : ¬x = c := fun e => h (e ▸ List.mem_cons_self _ _)
    have hxs : c ∉ xs := fun m => h (List.mem_cons_of_mem _ m)
    simp [splitAtFirst, hx, ih hxs]

/-- Unescaping is the identity on strings without `%` in path mode. -/
theorem pathUnescape_id {s : GoStr} (h : '%' ∉ s) : pathUnescape s = some s := by
  induction s with
  | nil => rfl
  | cons x xs ih =>
    have hx : ¬x = '%' := fun e => h (e ▸ List.mem_cons_self _ _)
    have hxs : '%' ∉ xs := fun m => h (List.mem_cons_of_mem _ m)
    have ih' := ih hxs
    simp only [pathUnescape] at ih' ⊢
    rw [unescapeGo.eq_def]
    by_cases hp : x = '+'
    · subst hp
      simp [ih']
    · simp [hx, hp, ih']

/-- Unescaping is the identity on strings without `%` and `+` in query mode. -/
theorem queryUnescape_id {s : GoStr} (h : '%' ∉ s) (h2 : '+' ∉ s) :
    queryUnescape s = some s := by
  induction s with
  | nil => rfl
  | cons x xs ih =>
    have hx : ¬x = '%' := fun e => h (e ▸ List.mem_cons_self _ _)
    have hp : ¬x = '+' := fun e => h2 (e ▸ List.mem_cons_self _ _)
    have ih' := ih (fun m => h (List.mem_cons_of_mem _ m))
      (fun m => h2 (List.mem_cons_of_mem _ m))
    simp only [queryUnescape] at ih' ⊢
    rw [unescapeGo.eq_def]
    simp [hx, hp, ih']

/-- One step of `queryEscape`. -/
theorem queryEscape_cons (x : Char) (xs : GoStr) :
    queryEscape (x :: xs) =
      (if queryNoEscape x then [x] else if x = ' ' then ['+'] else percentHex x)
        ++ queryEscape xs := rfl

/-- One step of `EscapePath`. -/
theorem EscapePath_cons (x : Char) (xs : GoStr) (b : Bool) :
    EscapePath (x :: xs) b =
      (if queryNoEscape x || (x = '/' && !b) then [x] else percentHex x)
        ++ EscapePath xs b := rfl

/-- Query escaping is the identity on strings of unreserved characters. -/
theorem queryEscape_id {s : GoStr} (h : ∀ c ∈ s, queryNoEscape c = true) :
    queryEscape s = s := by
  induction s with
  | nil => rfl
  | cons x xs ih =>
    have hx := h x (List.mem_cons_self _ _)
    have ih' := ih (fun c m => h c (List.mem_cons_of_mem _ m))
    rw [queryEscape_cons, if_pos hx, ih']
    rfl

/-- The characters query escaping emits for an alphanumeric-or-space string:
unreserved characters stay, a space becomes `+`. -/
theorem queryEscape_space {s : GoStr}
    (h : ∀ c ∈ s, queryNoEscape c = true ∨ c = ' ') :
    queryEscape s = s.map (fun c => if c = ' ' then '+' else c) := by
  induction s with
  | nil => rfl
  | cons x xs ih =>
    have ih' := ih (fun c m => h c (List.mem_cons_of_mem _ m))
    rw [queryEscape_cons, ih']
    rcases h x (List.mem_cons_self _ _) with hx | hx
    · have hsp : ¬x = ' ' := by
        intro e; subst e; simp [queryNoEscape] at hx
      rw [if_pos hx]
      simp [hsp]
    · subst hx
      rw [if_neg (by simp [queryNoEscape]), if_pos rfl]
      simp

/-- Unescaping a query-escaped alphanumeric-or-space string gives it back. -/
theorem queryUnescape_queryEscape {s : GoStr}
    (h : ∀ c ∈ s, queryNoEscape c = true ∨ c = ' ') :
    queryUnescape (queryEscape s) = some s := by
  induction s with
  | nil => rfl
  | cons x xs ih =>
    have ih' := ih (fun c m => h c (List.mem_cons_of_mem _ m))
    simp only [queryUnescape] at ih' ⊢
    rcases h x (List.mem_cons_self _ _) with hx | hx
    · have h1 : ¬x = '%' := by
        intro e; subst e; simp [queryNoEscape] at hx
      have h2 : ¬x = '+' := by
        intro e; subst e; simp [queryNoEscape] at hx
      rw [queryEscape_cons, if_pos hx]
      rw [show ([x] ++ queryEscape xs : GoStr) = x :: queryEscape xs from rfl]
      rw [unescapeGo.eq_def]
      simp [h1, h2, ih']
    · subst hx
      rw [queryEscape_cons, if_neg (by simp [queryNoEscape]), if_pos rfl]
      rw [show (['+'] ++ queryEscape xs : GoStr) = '+' :: queryEscape xs from rfl]
      rw [unescapeGo.eq_def]
      simp [ih']

/-- Path escaping is the identity on plain path characters. -/
theorem EscapePath_id {s : GoStr} (h : ∀ c ∈ s, plainPathChar c = true) :
    EscapePath s false = s := by
  induction s with
  | nil => rfl
  | cons x xs ih =>
    have hx := h x (List.mem_cons_self _ _)
    have ih' := ih (fun c m => h c (List.mem_cons_of_mem _ m))
    have hcond : (queryNoEscape x || (x = '/' && !false)) = true := by
      simp only [plainPathChar, Bool.or_eq_true] at hx
      rcases hx with hx | hx
      · simp [hx]
      · simp [hx]
    rw [EscapePath_cons, if_pos hcond, ih']
    rfl

/-- Every character of a joined string is a separator character or a
character of one of the parts. -/
theorem mem_joinSep {sep : GoStr} {ps : List GoStr} {c : Char}
    (h : c ∈ joinSep sep ps) : c ∈ sep ∨ ∃ x ∈ ps, c ∈ x := by
  induction ps with
  | nil => cases h
  | cons x xs ih =>
    cases xs with
    | nil =>
      right; exact ⟨x, List.mem_cons_self _ _, h⟩
    | cons y ys =>
      rw [show joinSep sep (x :: y :: ys) = x ++ sep ++ joinSep sep (y :: ys)
            from rfl] at h
      rcases List.mem_append.mp h with h1 | h1
      · rcases List.mem_append.mp h1 with h2 | h2
        · exact Or.inr ⟨x, List.mem_cons_self _ _, h2⟩
        · exact Or.inl h2
      · rcases ih h1 with h2 | ⟨z, hz, hcz⟩
        · exact Or.inl h2
        · exact Or.inr ⟨z, List.mem_cons_of_mem _ hz, hcz⟩

/-- Splitting a separator-free string yields that single part. -/
theorem splitOnChar_of_not_mem {c : Char} :
    ∀ {x : GoStr}, c ∉ x → splitOnChar c x = [x] := by
  intro x
  induction x with
  | nil => intro _; rfl
  | cons u us ih =>
    intro h
    have hu : ¬u = c := fun e => h (e ▸ List.mem_cons_self _ _)
    have hus := ih (fun m => h (List.mem_cons_of_mem _ m))
    simp only [splitOnChar, hu, if_false, ite_false, hus]

/-- Splitting past a leading separator-free part. -/
theorem splitOnChar_append_sep {c : Char} :
    ∀ {x : GoStr} (t : GoStr), c ∉ x →
      splitOnChar c (x ++ c :: t) = x :: splitOnChar c t := by
  intro x
  induction x with
  | nil => intro t _; simp [splitOnChar]
  | cons u us ih =>
    intro t h
    have hu : ¬u = c := fun e => h (e ▸ List.mem_cons_self _ _)
    have hus := ih t (fun m => h (List.mem_cons_of_mem _ m))
    simp only [List.cons_append, splitOnChar, hu, if_false, ite_false]
    rw [show us.append (c :: t) = us ++ c :: t from rfl, hus]

/-- Splitting a joined string on the separator recovers the parts, when no
part contains the separator. -/
theorem splitOnChar_joinSep {c : Char} :
    ∀ {ps : List GoStr}, ps ≠ [] → (∀ x ∈ ps, c ∉ x) →
      splitOnChar c (joinSep [c] ps) = ps := by
  intro ps
  induction ps with
  | nil => intro h; cases h rfl
  | cons x xs ih =>
    intro _ hall
    have hx : c ∉ x := hall x (List.mem_cons_self _ _)
    cases xs with
    | nil => exact splitOnChar_of_not_mem hx
    | cons y ys =>
      have hxs : ∀ z ∈ y :: ys, c ∉ z :=
        fun z m => hall z (List.mem_cons_of_mem _ m)
      have ihr := ih (by simp) hxs
      rw [show joinSep [c] (x :: y :: ys) = x ++ c :: joinSep [c] (y :: ys)
            from by simp [joinSep]]
      rw [splitOnChar_append_sep _ hx, ihr]

/-- A template without `\x7b` has no placeholder matches. -/
theorem findMatches_of_no_brace {s : GoStr} (h : '\x7b' ∉ s) :
    findMatches s = [] := by
  have : ∀ t : GoStr, '\x7b' ∉ t → findMatchesGo t none = [] := by
    intro t
    induction t with
    | nil => intro _; rfl
    | cons x xs ih =>
      intro hm
      have hx : ¬x = '\x7b' := fun e => hm (e ▸ List.mem_cons_self _ _)
      have hxs := ih (fun m => hm (List.mem_cons_of_mem _ m))
      simp only [findMatchesGo, hx, if_false, ite_false, hxs]
  exact this s h

/-! ### `accessMap` lemmas -/

/-- Unfolding: the empty object emits nothing. -/
theorem accessMap_nil (base : List GoStr) (url pre : GoStr) (res : List GoStr) :
    accessMap base .nil url pre res = res := rfl

/-- Unfolding: an ignored field is skipped. -/
theorem accessMap_cons_ignored {base : List GoStr} {url k : GoStr}
    (hig : shouldIgnoreField base url k = true) (v : JVal) (rest : JObj)
    (pre : GoStr) (res : List GoStr) :
    accessMap base (.cons k v rest) url pre res = accessMap base rest url pre res := by
  cases v <;> simp [accessMap, hig]

/-- Unfolding: a null field emits nothing. -/
theorem accessMap_cons_null {base : List GoStr} {url k : GoStr}
    (hig : ¬shouldIgnoreField base url k = true) (rest : JObj)
    (pre : GoStr) (res : List GoStr) :
    accessMap base (.cons k .null rest) url pre res
      = accessMap base rest url pre res := by
  simp [accessMap, hig]

/-- Unfolding: an array field runs the element loop. -/
theorem accessMap_cons_arr {base : List GoStr} {url k : GoStr}
    (hig : ¬shouldIgnoreField base url k = true) (es : JArr) (rest : JObj)
    (pre : GoStr) (res : List GoStr) :
    accessMap base (.cons k (.arr es) rest) url pre res
      = accessMap base rest url pre (accessMapArr base k url pre es 1 res) := by
  simp [accessMap, hig]

/-- Unfolding: any other field value emits one `prefix+key=%v` pair. -/
theorem accessMap_cons_default {base : List GoStr} {url k : GoStr} {v : JVal}
    (hig : ¬shouldIgnoreField base url k = true)
    (h1 : ∀ es, v = JVal.arr es → False) (h2 : ¬v = JVal.null)
    (rest : JObj) (pre : GoStr) (res : List GoStr) :
    accessMap base (.cons k v rest) url pre res
      = accessMap base rest url pre (res ++ [pre ++ k ++ '=' :: goV v]) := by
  cases v with
  | arr es => exact (h1 es rfl).elim
  | null => exact (h2 rfl).elim
  | bool b => simp [accessMap, hig]
  | num r => simp [accessMap, hig]
  | str s => simp [accessMap, hig]
  | obj o => simp [accessMap, hig]

/-- Unfolding: the element loop on an empty array emits nothing. -/
theorem accessMapArr_nil (base : List GoStr) (k url pre : GoStr) (i : Nat)
    (res : List GoStr) :
    accessMapArr base k url pre .nil i res = res := rfl

/-- Unfolding: an object element recurses with the fresh prefix `k.i.`. -/
theorem accessMapArr_cons_obj (base : List GoStr) (k url pre : GoStr)
    (f : JObj) (rest : JArr) (i : Nat) (res : List GoStr) :
    accessMapArr base k url pre (.cons (.obj f) rest) i res
      = accessMapArr base k url pre rest (i + 1)
          (accessMap base f url (k ++ '.' :: Nat.toDigits 10 i ++ ['.']) res) := rfl

/-- Unfolding: a null element emits nothing. -/
theorem accessMapArr_cons_null (base : List GoStr) (k url pre : GoStr)
    (rest : JArr) (i : Nat) (res : List GoStr) :
    accessMapArr base k url pre (.cons .null rest) i res
      = accessMapArr base k url pre rest (i + 1) res := rfl

/-- Unfolding: any other element emits one `prefix+k.i=%s` pair. -/
theorem accessMapArr_cons_default (base : List GoStr) (k url pre : GoStr)
    {n : JVal} (h1 : ∀ f, n = JVal.obj f → False) (h2 : ¬n = JVal.null)
    (rest : JArr) (i : Nat) (res : List GoStr) :
    accessMapArr base k url pre (.cons n rest) i res
      = accessMapArr base k url pre rest (i + 1)
          (res ++ [pre ++ k ++ '.' :: Nat.toDigits 10 i ++ '=' :: goS n]) := by
  cases n with
  | obj f => exact (h1 f rfl).elim
  | null => exact (h2 rfl).elim
  | bool b => rfl
  | num r => rfl
  | str s => rfl
  | arr a => rfl

/-- Simultaneous accumulator lemma for the mutual flattening recursion: the
result list is only ever appended to. -/
theorem accessMap_acc_core (base : List GoStr) :
    (∀ (m : JObj) (url pre : GoStr) (_dummy res : List GoStr),
        accessMap base m url pre res = res ++ accessMap base m url pre []) ∧
    (∀ (k url pre : GoStr) (es : JArr) (i : Nat) (_dummy res : List GoStr),
        accessMapArr base k url pre es i res
          = res ++ accessMapArr base k url pre es i []) := by
  refine accessMap.mutual_induct base
    (fun m url pre _ => ∀ res,
      accessMap base m url pre res = res ++ accessMap base m url pre [])
    (fun k url pre es i _ => ∀ res,
      accessMapArr base k url pre es i res
        = res ++ accessMapArr base k url pre es i [])
    ?_ ?_ ?_ ?_ ?_ ?_ ?_ ?_ ?_
  · intro k url pre i _ res
    simp [accessMapArr_nil]
  · intro k url pre i _ rest f ih1 ih2 res
    rw [accessMapArr_cons_obj, accessMapArr_cons_obj,
      ih2 (accessMap base f url (k ++ '.' :: Nat.toDigits 10 i ++ ['.']) res),
      ih1 res,
      ih2 (accessMap base f url (k ++ '.' :: Nat.toDigits 10 i ++ ['.']) [])]
    simp
  · intro k url pre i _ rest ih res
    rw [accessMapArr_cons_null, accessMapArr_cons_null, ih res]
  · intro k url pre i _ n rest h1 h2 ih res
    rw [accessMapArr_cons_default base k url pre h1 h2,
      accessMapArr_cons_default base k url pre h1 h2,
      ih (res ++ [pre ++ k ++ '.' :: Nat.toDigits 10 i ++ '=' :: goS n]),
      ih ([] ++ [pre ++ k ++ '.' :: Nat.toDigits 10 i ++ '=' :: goS n])]
    simp
  · intro url pre _ res
    simp [accessMap_nil]
  · intro url pre _ k v rest hig ih res
    rw [accessMap_cons_ignored hig, accessMap_cons_ignored hig, ih res]
  · intro url pre _ k rest hig es ih1 ih2 res
    rw [accessMap_cons_arr hig, accessMap_cons_arr hig,
      ih2 (accessMapArr base k url pre es 1 res),
      ih1 res,
      ih2 (accessMapArr base k url pre es 1 [])]
    simp
  · intro url pre _ k rest hig ih res
    rw [accessMap_cons_null hig, accessMap_cons_null hig, ih res]
  · intro url pre _ k v rest hig h1 h2 ih res
    rw [accessMap_cons_default hig h1 h2, accessMap_cons_default hig h1 h2,
      ih (res ++ [pre ++ k ++ '=' :: goV v]),
      ih ([] ++ [pre ++ k ++ '=' :: goV v])]
    simp

/-- The flattening recursion only appends to the accumulated result list. -/
theorem accessMap_acc (base : List GoStr) (m : JObj) (url pre : GoStr)
    (res : List GoStr) :
    accessMap base m url pre res = res ++ accessMap base m url pre [] :=
  (accessMap_acc_core base).1 m url pre [] res

/-- The element loop only appends to the accumulated result list. -/
theorem accessMapArr_acc (base : List GoStr) (k url pre : GoStr) (es : JArr)
    (i : Nat) (res : List GoStr) :
    accessMapArr base k url pre es i res
      = res ++ accessMapArr base k url pre es i [] :=
  (accessMap_acc_core base).2 k url pre es i [] res

/-- Each field contributes its own pairs, in entry order. -/
theorem accessMap_cons_decomp (base : List GoStr) (k : GoStr) (v : JVal)
    (rest : JObj) (url pre : GoStr) (res : List GoStr) :
    accessMap base (.cons k v rest) url pre res
      = res ++ accessMap base (.cons k v .nil) url pre []
          ++ accessMap base rest url pre [] := by
  by_cases hig : shouldIgnoreField base url k = true
  · rw [accessMap_cons_ignored hig, accessMap_cons_ignored hig,
      accessMap_acc, accessMap_nil]
    simp
  · cases v with
    | null =>
      rw [accessMap_cons_null hig, accessMap_cons_null hig,
        accessMap_acc, accessMap_nil]
      simp
    | arr es =>
      rw [accessMap_cons_arr hig, accessMap_cons_arr hig,
        accessMap_acc base rest, accessMapArr_acc,
        accessMap_acc base JObj.nil, accessMap_nil, accessMapArr_acc]
      simp
    | bool b =>
      rw [accessMap_cons_default hig (by intro es h; cases h) (by intro h; cases h),
        accessMap_cons_default hig (by intro es h; cases h) (by intro h; cases h),
        accessMap_acc base rest, accessMap_acc base JObj.nil, accessMap_nil]
      simp
    | num r =>
      rw [accessMap_cons_default hig (by intro es h; cases h) (by intro h; cases h),
        accessMap_cons_default hig (by intro es h; cases h) (by intro h; cases h),
        accessMap_acc base rest, accessMap_acc base JObj.nil, accessMap_nil]
      simp
    | str s =>
      rw [accessMap_cons_default hig (by intro es h; cases h) (by intro h; cases h),
        accessMap_cons_default hig (by intro es h; cases h) (by intro h; cases h),
        accessMap_acc base rest, accessMap_acc base JObj.nil, accessMap_nil]
      simp
    | obj o =>
      rw [accessMap_cons_default hig (by intro es h; cases h) (by intro h; cases h),
        accessMap_cons_default hig (by intro es h; cases h) (by intro h; cases h),
        accessMap_acc base rest, accessMap_acc base JObj.nil, accessMap_nil]
      simp

/-- Flattening a concatenated entry list processes the parts in order. -/
theorem accessMap_jobj_append (base : List GoStr)
    (xs ys : List (GoStr × JVal)) (url pre : GoStr) :
    accessMap base (jobj (xs ++ ys)) url pre []
      = accessMap base (jobj xs) url pre [] ++ accessMap base (jobj ys) url pre [] := by
  induction xs with
  | nil => simp [jobj, accessMap_nil]
  | cons p xs' ih =>
    obtain ⟨k, v⟩ := p
    rw [show jobj (((k, v) :: xs') ++ ys) = .cons k v (jobj (xs' ++ ys)) from rfl]
    rw [show jobj ((k, v) :: xs') = .cons k v (jobj xs') from rfl]
    rw [accessMap_cons_decomp base k v (jobj (xs' ++ ys)), ih,
      accessMap_cons_decomp base k v (jobj xs')]
    simp

/-- Flattening an all-string bag with no ignored fields emits exactly one
`prefix+key=value` pair per field, in entry order. -/
theorem accessMap_strEntries (base : List GoStr)
    (entries : List (GoStr × GoStr)) (url pre : GoStr)
    (hig : ∀ p ∈ entries, shouldIgnoreField base url p.1 = false) :
    accessMap base (jobj (strEntries entries)) url pre []
      = entries.map (fun p => pre ++ p.1 ++ '=' :: p.2) := by
  induction entries with
  | nil => rfl
  | cons p es ih =>
    obtain ⟨k, v⟩ := p
    have hk : ¬shouldIgnoreField base url k = true := by
      intro h
      have := hig (k, v) (List.mem_cons_self _ _)
      rw [h] at this
      cases this
    rw [show jobj (strEntries ((k, v) :: es)) = .cons k (.str v) (jobj (strEntries es))
          from rfl]
    rw [accessMap_cons_decomp,
      accessMap_cons_default hk (by intro es h; cases h) (by intro h; cases h),
      accessMap_nil,
      ih (fun q m => hig q (List.mem_cons_of_mem _ m))]
    simp [goV]

/-- If some placeholder's field is missing from the bag, the substitution loop
fails, naming a missing field of the list, and returns an empty result. -/
theorem replLoop_missing {bag : JObj} :
    ∀ (ms : List GoStr) (url : GoStr),
      (∃ m ∈ ms, jobjLookup (trimRightBrace (trimLeftBrace m)) bag = none) →
      ∃ f, jobjLookup f bag = none ∧
        f ∈ ms.map (fun m => trimRightBrace (trimLeftBrace m)) ∧
        replLoop ms url bag
          = ([], some (gs "Can not find path parameter: " ++ f)) := by
  intro ms
  induction ms with
  | nil =>
    intro url h
    rcases h with ⟨m, hm, _⟩
    cases hm
  | cons m0 rest ih =>
    intro url h
    cases hl : jobjLookup (trimRightBrace (trimLeftBrace m0)) bag with
    | none =>
      refine ⟨trimRightBrace (trimLeftBrace m0), hl, ?_, ?_⟩
      · exact List.mem_map_of_mem _ (List.mem_cons_self _ _)
      · simp [replLoop, hl]
    | some v =>
      have hrest : ∃ m ∈ rest, jobjLookup (trimRightBrace (trimLeftBrace m)) bag = none := by
        rcases h with ⟨m, hm, hnone⟩
        rcases List.mem_cons.mp hm with e | hm'
        · subst e; rw [hl] at hnone; cases hnone
        · exact ⟨m, hm', hnone⟩
      rcases ih (replaceAll url m0 (goV v)) hrest with ⟨f, h1, h2, h3⟩
      refine ⟨f, h1, List.mem_cons_of_mem _ h2, ?_⟩
      simp only [replLoop, hl]
      exact h3

/-- Inserting into a list is a permutation of prepending. -/
theorem insertLe_perm (le : α → α → Bool) (x : α) :
    ∀ l : List α, (insertLe le x l).Perm (x :: l) := by
  intro l
  induction l with
  | nil => exact List.Perm.refl _
  | cons y ys ih =>
    by_cases h : le x y = true
    · simp [insertLe, h]
    · simp only [insertLe, h, if_false, ite_false]
      exact ((ih.cons y).trans (List.Perm.swap x y ys))

/-- Insertion sort permutes its input. -/
theorem insortLe_perm (le : α → α → Bool) :
    ∀ l : List α, (insortLe le l).Perm l := by
  intro l
  induction l with
  | nil => exact List.Perm.refl _
  | cons x xs ih =>
    exact (insertLe_perm le x (insortLe le xs)).trans (ih.cons x)

/-- Adding a key not yet present appends it at the end. -/
theorem valuesAdd_fresh {vs : UrlValues} {k : GoStr}
    (h : k ∉ vs.map Prod.fst) (v : GoStr) :
    valuesAdd vs k v = vs ++ [(k, [v])] := by
  induction vs with
  | nil => rfl
  | cons p rest ih =>
    obtain ⟨k', l⟩ := p
    have hk : ¬k' = k := by
      intro e
      exact h (e ▸ List.mem_map_of_mem Prod.fst (List.mem_cons_self _ _))
    have hrest : k ∉ rest.map Prod.fst :=
      fun m => h (List.mem_cons_of_mem _ m)
    simp [valuesAdd, hk, ih hrest]

/-- The first values-list stored for a key present in a duplicate-free
`UrlValues`. -/
theorem valuesGet_of_mem {vs : UrlValues} {k : GoStr} {ls : List GoStr}
    (h : (k, ls) ∈ vs) (hnd : (vs.map Prod.fst).Nodup) :
    valuesGet vs k = ls.headD [] := by
  induction vs with
  | nil => cases h
  | cons p rest ih =>
    obtain ⟨k', l'⟩ := p
    rcases List.mem_cons.mp h with e | hm
    · have e1 : k' = k := (Prod.ext_iff.mp e.symm).1
      have e2 : l' = ls := (Prod.ext_iff.mp e.symm).2
      simp [valuesGet, e1, e2]
    · have hk : ¬k' = k := by
        intro e
        subst e
        have : k' ∈ rest.map Prod.fst := List.mem_map_of_mem Prod.fst hm
        exact (List.nodup_cons.mp hnd).1 this
      simp only [valuesGet, hk, if_false, ite_false]
      exact ih hm (List.nodup_cons.mp hnd).2

/-- A character satisfying a Boolean class is not in a string all of whose
characters fail it, and vice versa. -/
theorem not_mem_of_pred {p : Char → Bool} {s : GoStr}
    (hall : ∀ c ∈ s, p c = true) {d : Char} (hd : p d = false) : d ∉ s := by
  intro m
  have := hall d m
  rw [hd] at this
  cases this

/-- Processing one clean `key=value` piece adds the decoded pair. -/
theorem parseQueryStep_clean (acc : UrlValues) {k w dv : GoStr}
    (hkeq : '=' ∉ k) (hks : ';' ∉ k) (hvs : ';' ∉ w)
    (hdk : queryUnescape k = some k) (hdv : queryUnescape w = some dv) :
    parseQueryStep acc (k ++ '=' :: w) = valuesAdd acc k dv := by
  have hsemi : ';' ∉ k ++ '=' :: w := by
    intro m
    rcases List.mem_append.mp m with m | m
    · exact hks m
    · rcases List.mem_cons.mp m with e | m
      · cases e
      · exact hvs m
  have hc : containsStr (k ++ '=' :: w) (gs ";") = false :=
    containsStr_eq_false (List.mem_cons_self _ _) hsemi
  have hne : ¬(k ++ '=' :: w = []) := by
    intro e
    cases k <;> cases e
  simp only [parseQueryStep, hc, if_false, ite_false, Bool.false_eq_true, hne,
    splitAtFirst_append w hkeq, hdk, hdv]

/-- Folding the parse step over clean encoded `key=value` pieces (the encoded
value decoding to the stored value) with fresh, distinct keys appends one
singleton entry per pair. -/
theorem foldl_parseQueryStep (f : GoStr → GoStr) :
    ∀ (ps : List (GoStr × GoStr)) (acc : UrlValues),
      (∀ p ∈ ps, '=' ∉ p.1 ∧ ';' ∉ p.1 ∧ ';' ∉ f p.2 ∧
        queryUnescape p.1 = some p.1 ∧ queryUnescape (f p.2) = some p.2) →
      (acc.map Prod.fst ++ ps.map Prod.fst).Nodup →
      (ps.map (fun p => p.1 ++ '=' :: f p.2)).foldl parseQueryStep acc
        = acc ++ ps.map (fun p => (p.1, [p.2])) := by
  intro ps
  induction ps with
  | nil => intro acc _ _; simp
  | cons p ps' ih =>
    intro acc hclean hnd
    obtain ⟨k, v⟩ := p
    obtain ⟨h1, h2, h3, h4, h5⟩ := hclean (k, v) (List.mem_cons_self _ _)
    have hfresh : k ∉ acc.map Prod.fst := by
      intro hk
      have hdisj := List.disjoint_of_nodup_append hnd
      exact hdisj hk (by simp)
    rw [List.map_cons, List.foldl_cons,
      parseQueryStep_clean acc h1 h2 h3 h4 h5,
      valuesAdd_fresh hfresh v,
      ih (acc ++ [(k, [v])]) (fun q m => hclean q (List.mem_cons_of_mem _ m))
        (by
          rw [List.map_append]
          have : (acc.map Prod.fst ++ [(k, [v])].map Prod.fst) ++ ps'.map Prod.fst
              = acc.map Prod.fst ++ (((k, v) :: ps').map Prod.fst) := by
            simp
          rw [this]
          exact hnd)]
    simp

/-- A `UrlValues` whose entries are all singleton lists is the singleton image
of its per-key heads. -/
theorem urlvalues_singleton_shape :
    ∀ {vs : UrlValues}, (∀ kv ∈ vs, ∃ x, kv.2 = [x]) →
      vs = (vs.map (fun kv => (kv.1, kv.2.headD []))).map (fun p => (p.1, [p.2])) := by
  intro vs
  induction vs with
  | nil => intro _; rfl
  | cons kv rest ih =>
    intro h
    obtain ⟨x, hx⟩ := h kv (List.mem_cons_self _ _)
    obtain ⟨k, l⟩ := kv
    simp only at hx
    subst hx
    simp only [List.map_cons]
    rw [← ih (fun q m => h q (List.mem_cons_of_mem _ m))]
    rfl

/-- Encoding a singleton-valued `UrlValues` after sorting yields one escaped
piece per entry. -/
theorem flatMap_singleton (vs : UrlValues) (h : ∀ kv ∈ vs, ∃ x, kv.2 = [x]) :
    vs.flatMap (fun kv => kv.2.map (fun v => queryEscape kv.1 ++ '=' :: queryEscape v))
      = vs.map (fun kv => queryEscape kv.1 ++ '=' :: queryEscape (kv.2.headD [])) := by
  induction vs with
  | nil => rfl
  | cons kv rest ih =>
    obtain ⟨x, hx⟩ := h kv (List.mem_cons_self _ _)
    obtain ⟨k, l⟩ := kv
    simp only at hx
    subst hx
    simp only [List.flatMap_cons, List.map_cons]
    rw [ih (fun q m => h q (List.mem_cons_of_mem _ m))]
    rfl

/-- Membership test of an absent key is false. -/
theorem includes_eq_false_of_not_mem {base : List GoStr} {k : GoStr}
    (h : k ∉ base) : includes base k = false := by
  cases hc : includes base k with
  | false => rfl
  | true =>
    exact absurd (List.elem_iff.mp hc) h

/-- Joining non-empty parts is non-empty. -/
theorem joinSep_ne_nil {sep : GoStr} :
    ∀ {ps : List GoStr}, ps ≠ [] → (∀ x ∈ ps, x ≠ []) →
      joinSep sep ps ≠ [] := by
  intro ps
  induction ps with
  | nil => intro h; cases h rfl
  | cons x xs _ =>
    intro _ hall
    cases xs with
    | nil => exact hall x (List.mem_cons_self _ _)
    | cons y ys =>
      rw [show joinSep sep (x :: y :: ys) = x ++ sep ++ joinSep sep (y :: ys)
            from rfl]
      intro e
      have hx := hall x (List.mem_cons_self _ _)
      cases hxe : x with
      | nil => exact hx hxe
      | cons a as =>
        rw [hxe] at e
        cases e

/-- Every part occurs contiguously inside the joined string. -/
theorem joinSep_mem_parts {sep x : GoStr} :
    ∀ {ps : List GoStr}, x ∈ ps →
      ∃ a b, joinSep sep ps = a ++ x ++ b := by
  intro ps
  induction ps with
  | nil => intro h; cases h
  | cons y ys ih =>
    intro h
    rcases List.mem_cons.mp h with e | h'
    · subst e
      cases ys with
      | nil => exact ⟨[], [], by simp [joinSep]⟩
      | cons z zs =>
        exact ⟨[], sep ++ joinSep sep (z :: zs), by
          rw [show joinSep sep (x :: z :: zs) = x ++ sep ++ joinSep sep (z :: zs)
                from rfl]
          simp⟩
    · rcases ih h' with ⟨a, b, hab⟩
      cases ys with
      | nil => cases h'
      | cons z zs =>
        refine ⟨y ++ sep ++ a, b, ?_⟩
        rw [show joinSep sep (y :: z :: zs) = y ++ sep ++ joinSep sep (z :: zs)
              from rfl, hab]
        simp

/-- Parsing a URL made of a plain-character path, `?`, and a clean raw query
returns exactly that split. -/
theorem urlParse_plain_query (url qp : GoStr)
    (hurl : ∀ c ∈ url, c ∈ pathPlainChars)
    (hq1 : ∀ c ∈ qp, isCtlChar c = false) (hq2 : '#' ∉ qp) :
    urlParse (url ++ '?' :: qp) = some (url, qp) := by
  have hplain : ∀ c ∈ pathPlainChars,
      isCtlChar c = false ∧ ¬c = '#' ∧ ¬c = '?' ∧ ¬c = '%' := by decide
  have hctl : (url ++ '?' :: qp).any isCtlChar = false := by
    rw [List.any_eq_false]
    intro c hc
    rcases List.mem_append.mp hc with h | h
    · rw [(hplain c (hurl c h)).1]; exact Bool.false_ne_true
    · rcases List.mem_cons.mp h with e | h'
      · subst e; decide
      · rw [hq1 c h']; exact Bool.false_ne_true
  have hhash : '#' ∉ url ++ '?' :: qp := by
    intro hc
    rcases List.mem_append.mp hc with h | h
    · exact (hplain '#' (hurl '#' h)).2.1 rfl
    · rcases List.mem_cons.mp h with e | h'
      · cases e
      · exact hq2 h'
  have hq : '?' ∉ url := fun m => (hplain '?' (hurl '?' m)).2.2.1 rfl
  have hpct : '%' ∉ url := fun m => (hplain '%' (hurl '%' m)).2.2.2 rfl
  unfold urlParse
  rw [if_neg (by rw [hctl]; exact Bool.false_ne_true)]
  simp only []
  rw [splitAtFirst_not_mem hhash, splitAtFirst_append qp hq,
    pathUnescape_id hpct]
  rfl

/-- Re-encoding a URL made of a plain path plus a clean, non-trivial query keeps the path
and reattaches the standard re-encoding of the query. -/
theorem encodeUrl_plain_query (url qp : GoStr)
    (hurl : ∀ c ∈ url, c ∈ pathPlainChars)
    (hq1 : ∀ c ∈ qp, isCtlChar c = false) (hq2 : '#' ∉ qp)
    (hne : valuesEncode (parseQueryValues qp) ≠ []) :
    encodeUrl (url ++ '?' :: qp)
      = (url ++ '?' :: valuesEncode (parseQueryValues qp), none) := by
  have hplain : ∀ c ∈ pathPlainChars, plainPathChar c = true := by decide
  unfold encodeUrl
  rw [urlParse_plain_query url qp hurl hq1 hq2]
  simp only []
  rw [EscapePath_id (fun c m => hplain c (hurl c m)), if_pos hne]

/-- A `key=value` piece is never empty. -/
theorem piece_ne_nil (x y : GoStr) : x ++ '=' :: y ≠ [] := by
  intro h
  cases x <;> cases h

/-- Characters of a `key=value` piece. -/
theorem mem_piece {d : Char} {x y : GoStr} (h : d ∈ x ++ '=' :: y) :
    d ∈ x ∨ d = '=' ∨ d ∈ y := by
  rcases List.mem_append.mp h with h | h
  · exact Or.inl h
  · rcases List.mem_cons.mp h with e | h'
    · exact Or.inr (Or.inl e)
    · exact Or.inr (Or.inr h')

/-- Escaping an alphanumeric-or-space string yields only alphanumerics and
`+`. -/
theorem queryEscape_chars {v : GoStr} (h : ∀ c ∈ v, c ∈ ' ' :: alnumChars) :
    ∀ c ∈ queryEscape v, c ∈ '+' :: alnumChars := by
  have hcls : ∀ c ∈ (' ' :: alnumChars), queryNoEscape c = true ∨ c = ' ' := by
    decide
  rw [queryEscape_space (fun c m => hcls c (h c m))]
  intro c hc
  rcases List.mem_map.mp hc with ⟨d, hd, e⟩
  by_cases hds : d = ' '
  · subst hds
    rw [if_pos rfl] at e
    rw [← e]
    exact List.mem_cons_self _ _
  · rw [if_neg hds] at e
    rw [← e]
    rcases List.mem_cons.mp (h d hd) with e2 | e2
    · exact absurd e2 hds
    · exact List.mem_cons_of_mem _ e2

/-! ### Claims -/

/-- C6: for the bodyless builder (GET/DELETE/HEAD), `BuildBody` returns the
empty string and no error for every input, including malformed JSON bytes. -/
theorem c6_withoutBody_buildBody_empty (paramJson : GoStr) :
    WithoutBodyBuilder.BuildBody paramJson = ([], none) := rfl

/-- C7: `GetParameterBuilder` returns the bodyless builder exactly when the
method is GET, DELETE or HEAD, and the body-bearing builder for every other
method string (unrecognized ones included); it is total, so no error is ever
raised. -/
theorem c7_builder_selection (method : GoStr) :
    (GetParameterBuilder method = .withoutBody ↔
      (method = gs "GET" ∨ method = gs "DELETE" ∨ method = gs "HEAD")) ∧
    (GetParameterBuilder method = .withBody ↔
      ¬(method = gs "GET" ∨ method = gs "DELETE" ∨ method = gs "HEAD")) := by
  by_cases h : method = gs "GET" ∨ method = gs "DELETE" ∨ method = gs "HEAD"
  · simp [GetParameterBuilder, h]
  · simp [GetParameterBuilder, h]

/-- C8: a field holding a bare JSON object (not inside an array, not null,
not ignored) is neither recursed into nor skipped by the flattening routine:
it contributes exactly one pair, whose key is the field name and whose value
is the object's `%v` stringification. -/
theorem c8_bare_object_single_pair (base : List GoStr) (url k : GoStr)
    (o : JObj) (pre post : List (GoStr × JVal))
    (hig : ¬shouldIgnoreField base url k = true) :
    accessMap base (jobj (pre ++ (k, JVal.obj o) :: post)) url [] []
      = accessMap base (jobj pre) url [] []
        ++ [k ++ '=' :: goV (.obj o)]
        ++ accessMap base (jobj post) url [] [] := by
  rw [accessMap_jobj_append]
  rw [show jobj ((k, JVal.obj o) :: post) = .cons k (.obj o) (jobj post) from rfl]
  rw [accessMap_cons_decomp,
    accessMap_cons_default hig (by intro es h; cases h) (by intro h; cases h),
    accessMap_nil]
  simp

/-- C8 witness at a concrete input: the `cfg` object field of the bag
`\x7b"cfg":\x7b"a":"b"\x7d,"n":"1"\x7d` yields exactly the single pair
`cfg=map[a:b]`. -/
theorem c8_bare_object_single_pair_witness :
    (¬shouldIgnoreField [] (gs "/x") (gs "cfg") = true) ∧
    accessMap [] (jobj ([] ++ (gs "cfg",
        JVal.obj (jobj [(gs "a", .str (gs "b"))])) :: [(gs "n", .str (gs "1"))]))
        (gs "/x") [] []
      = accessMap [] (jobj []) (gs "/x") [] []
        ++ [gs "cfg" ++ '=' :: goV (.obj (jobj [(gs "a", .str (gs "b"))]))]
        ++ accessMap [] (jobj [(gs "n", .str (gs "1"))]) (gs "/x") [] [] :=
  ⟨by decide,
   c8_bare_object_single_pair [] (gs "/x") (gs "cfg")
     (jobj [(gs "a", .str (gs "b"))]) [] [(gs "n", .str (gs "1"))] (by decide)⟩

/-- C9: when the flattening recursion enters an object that is an array
element, the new prefix is rebuilt from the field name and 1-based index
alone — the surrounding prefix `pre` is discarded — so the doubly nested bag
`\x7b"a":[\x7b"b":[\x7b"c":"x"\x7d]\x7d]\x7d` flattens to `b.1.c=x`, not
`a.1.b.1.c=x`, under every prefix. -/
theorem c9_prefix_discarded (base : List GoStr) (url pre : GoStr)
    (ha : ¬shouldIgnoreField base url (gs "a") = true)
    (hb : ¬shouldIgnoreField base url (gs "b") = true)
    (hc : ¬shouldIgnoreField base url (gs "c") = true) :
    accessMap base
      (jobj [(gs "a", .arr (jarr [.obj (jobj [(gs "b",
        .arr (jarr [.obj (jobj [(gs "c", .str (gs "x"))])]))])]))])
      url pre []
      = [gs "b.1.c=x"] := by
  simp only [jobj, jarr]
  rw [accessMap_cons_arr ha, accessMap_nil,
    accessMapArr_cons_obj, accessMapArr_nil,
    accessMap_cons_arr hb, accessMap_nil,
    accessMapArr_cons_obj, accessMapArr_nil,
    accessMap_cons_default hc (by intro es h; cases h) (by intro h; cases h),
    accessMap_nil]
  decide

/-- C9 witness at a concrete input, with a non-trivial surrounding prefix. -/
theorem c9_prefix_discarded_witness :
    (¬shouldIgnoreField [] (gs "/x") (gs "a") = true) ∧
    (¬shouldIgnoreField [] (gs "/x") (gs "b") = true) ∧
    (¬shouldIgnoreField [] (gs "/x") (gs "c") = true) ∧
    accessMap []
      (jobj [(gs "a", .arr (jarr [.obj (jobj [(gs "b",
        .arr (jarr [.obj (jobj [(gs "c", .str (gs "x"))])]))])]))])
      (gs "/x") (gs "zz.") []
      = [gs "b.1.c=x"] :=
  ⟨by decide, by decide, by decide,
   c9_prefix_discarded [] (gs "/x") (gs "zz.") (by decide) (by decide) (by decide)⟩

/-- C10: scalar array elements are formatted with the string verb `%s`: a
number element prints as `%!s(float64=<text>)` and a boolean as
`%!s(bool=true|false)`; only string elements print as their literal text.
A top-level scalar instead uses `%v`, printing the number's plain text. -/
theorem c10_array_scalar_verb (base : List GoStr) (url pre k : GoStr)
    (r : GoStr) (b : Bool)
    (hig : ¬shouldIgnoreField base url k = true) :
    accessMap base (jobj [(k, .arr (jarr [.num r, .bool b, .str (gs "t")]))])
        url pre []
      = [pre ++ k ++ gs ".1=" ++ gs "%!s(float64=" ++ r ++ [')'],
         pre ++ k ++ gs ".2=" ++ gs "%!s(bool=" ++ goBoolStr b ++ [')'],
         pre ++ k ++ gs ".3=" ++ gs "t"] ∧
    accessMap base (jobj [(k, .num r)]) url pre []
      = [pre ++ k ++ '=' :: r] := by
  constructor
  · simp only [jobj, jarr]
    rw [accessMap_cons_arr hig, accessMap_nil,
      accessMapArr_cons_default base k url pre
        (by intro f h; cases h) (by intro h; cases h),
      accessMapArr_cons_default base k url pre
        (by intro f h; cases h) (by intro h; cases h),
      accessMapArr_cons_default base k url pre
        (by intro f h; cases h) (by intro h; cases h),
      accessMapArr_nil]
    simp [goS]
    exact ⟨rfl, rfl, rfl⟩
  · simp only [jobj]
    rw [accessMap_cons_default hig (by intro es h; cases h) (by intro h; cases h),
      accessMap_nil]
    rfl

/-- C10 witness at a concrete input: `\x7b"nums":[3,true,"t"]\x7d` flattens to
`nums.1=%!s(float64=3)`, `nums.2=%!s(bool=true)`, `nums.3=t`, while the
top-level `\x7b"nums":3\x7d` flattens to `nums=3`. -/
theorem c10_array_scalar_verb_witness :
    (¬shouldIgnoreField [] (gs "/x") (gs "nums") = true) ∧
    (accessMap [] (jobj [(gs "nums",
        .arr (jarr [.num (gs "3"), .bool true, .str (gs "t")]))]) (gs "/x") [] []
      = [[] ++ gs "nums" ++ gs ".1=" ++ gs "%!s(float64=" ++ gs "3" ++ [')'],
         [] ++ gs "nums" ++ gs ".2=" ++ gs "%!s(bool=" ++ goBoolStr true ++ [')'],
         [] ++ gs "nums" ++ gs ".3=" ++ gs "t"] ∧
     accessMap [] (jobj [(gs "nums", .num (gs "3"))]) (gs "/x") [] []
      = [[] ++ gs "nums" ++ '=' :: gs "3"]) :=
  ⟨by decide,
   c10_array_scalar_verb [] (gs "/x") [] (gs "nums") (gs "3") true (by decide)⟩

/-- C1: for the bodyless builder on any placeholder-free template of plain
path characters, the bag
`\x7b"tags":[\x7b"key":"a","value":"1"\x7d,\x7b"key":"b","value":"2"\x7d]\x7d`
produces exactly the query pairs `tags.1.key=a`, `tags.1.value=1`,
`tags.2.key=b`, `tags.2.value=2`, in 1-based index order. -/
theorem c1_tags_flattening (base : List GoStr) (url : GoStr)
    (hurl : ∀ c ∈ url, c ∈ pathPlainChars)
    (h1 : gs "tags" ∉ base) (h2 : gs "key" ∉ base) (h3 : gs "value" ∉ base) :
    WithoutBodyBuilder.BuildURL base url
      (jobj [(gs "tags", .arr (jarr
        [.obj (jobj [(gs "key", .str (gs "a")), (gs "value", .str (gs "1"))]),
         .obj (jobj [(gs "key", .str (gs "b")), (gs "value", .str (gs "2"))])]))])
      = (url ++ gs "?tags.1.key=a&tags.1.value=1&tags.2.key=b&tags.2.value=2",
         none) := by
  have hplain : ∀ c ∈ pathPlainChars, ¬c = '\x7b' := by decide
  have hbrace : '\x7b' ∉ url := fun m => hplain _ (hurl _ m) rfl
  have hig : ∀ k : GoStr, k ∉ base → shouldIgnoreField base url k = false := by
    intro k hk
    unfold shouldIgnoreField
    rw [containsStr_eq_false (List.mem_append.mpr (Or.inl (List.mem_cons_self _ _)))
        hbrace,
      includes_eq_false_of_not_mem hk]
    rfl
  have higT := hig (gs "tags") h1
  have higK := hig (gs "key") h2
  have higV := hig (gs "value") h3
  have higT' : ¬shouldIgnoreField base url (gs "tags") = true := by
    rw [higT]; exact Bool.false_ne_true
  have hqp : buildQueryParams base
      (jobj [(gs "tags", .arr (jarr
        [.obj (jobj [(gs "key", .str (gs "a")), (gs "value", .str (gs "1"))]),
         .obj (jobj [(gs "key", .str (gs "b")), (gs "value", .str (gs "2"))])]))])
      url
      = gs "tags.1.key=a&tags.1.value=1&tags.2.key=b&tags.2.value=2" := by
    unfold buildQueryParams
    simp only [jobj, jarr]
    rw [accessMap_cons_arr higT', accessMap_nil,
      accessMapArr_cons_obj, accessMapArr_cons_obj, accessMapArr_nil,
      accessMap_acc]
    rw [show JObj.cons (gs "key") (.str (gs "a"))
          (JObj.cons (gs "value") (.str (gs "1")) .nil)
        = jobj (strEntries [(gs "key", gs "a"), (gs "value", gs "1")]) from rfl]
    rw [show JObj.cons (gs "key") (.str (gs "b"))
          (JObj.cons (gs "value") (.str (gs "2")) .nil)
        = jobj (strEntries [(gs "key", gs "b"), (gs "value", gs "2")]) from rfl]
    rw [accessMap_strEntries base _ url _ (by
        intro p hp
        rcases List.mem_cons.mp hp with e | hp'
        · subst e; exact higK
        · rcases List.mem_cons.mp hp' with e | hp''
          · subst e; exact higV
          · cases hp''),
      accessMap_strEntries base _ url _ (by
        intro p hp
        rcases List.mem_cons.mp hp with e | hp'
        · subst e; exact higK
        · rcases List.mem_cons.mp hp' with e | hp''
          · subst e; exact higV
          · cases hp'')]
    decide
  unfold WithoutBodyBuilder.BuildURL
  rw [show replaceUrlWithPathParam url
      (jobj [(gs "tags", .arr (jarr
        [.obj (jobj [(gs "key", .str (gs "a")), (gs "value", .str (gs "1"))]),
         .obj (jobj [(gs "key", .str (gs "b")), (gs "value", .str (gs "2"))])]))])
      = (url, none) from by
    unfold replaceUrlWithPathParam
    rw [findMatches_of_no_brace hbrace]
    rfl]
  simp only []
  rw [hqp]
  rw [if_pos (by decide)]
  rw [encodeUrl_plain_query url _ hurl (by decide) (by decide) (by decide)]
  rfl

/-- C1 witness at a concrete template. -/
theorem c1_tags_flattening_witness :
    (∀ c ∈ gs "/v1/tagsDemo", c ∈ pathPlainChars) ∧
    (gs "tags" ∉ ([] : List GoStr)) ∧
    WithoutBodyBuilder.BuildURL [] (gs "/v1/tagsDemo")
      (jobj [(gs "tags", .arr (jarr
        [.obj (jobj [(gs "key", .str (gs "a")), (gs "value", .str (gs "1"))]),
         .obj (jobj [(gs "key", .str (gs "b")), (gs "value", .str (gs "2"))])]))])
      = (gs "/v1/tagsDemo" ++
          gs "?tags.1.key=a&tags.1.value=1&tags.2.key=b&tags.2.value=2",
         none) :=
  ⟨by decide, by decide,
   c1_tags_flattening [] (gs "/v1/tagsDemo") (by decide) (by decide) (by decide)
     (by decide)⟩

/-- C2: for a URL template containing a placeholder whose name has no key in
the parameter bag, `BuildURL` of either builder returns the empty string and
an error naming a missing placeholder field; the placeholder is never
silently dropped. -/
theorem c2_missing_path_param (base : List GoStr) (url : GoStr) (bag : JObj)
    (name : GoStr)
    (hplace : name ∈ (findMatches url).map (fun m => trimRightBrace (trimLeftBrace m)))
    (hmiss : jobjLookup name bag = none) :
    ∃ f, jobjLookup f bag = none ∧
      f ∈ (findMatches url).map (fun m => trimRightBrace (trimLeftBrace m)) ∧
      WithoutBodyBuilder.BuildURL base url bag
        = ([], some (gs "Can not find path parameter: " ++ f)) ∧
      WithBodyBuilder.BuildURL url bag
        = ([], some (gs "Can not find path parameter: " ++ f)) := by
  have hex : ∃ m ∈ findMatches url,
      jobjLookup (trimRightBrace (trimLeftBrace m)) bag = none := by
    rcases List.mem_map.mp hplace with ⟨m, hm, e⟩
    exact ⟨m, hm, e ▸ hmiss⟩
  rcases replLoop_missing (findMatches url) url hex with ⟨f, h1, h2, h3⟩
  refine ⟨f, h1, h2, ?_, ?_⟩
  · simp only [WithoutBodyBuilder.BuildURL, replaceUrlWithPathParam, h3]
  · simp only [WithBodyBuilder.BuildURL, replaceUrlWithPathParam, h3]

/-- C2 witness: template `/region/\x7bregionId\x7d` with bag `\x7b"name":"x"\x7d`
fails with the missing-parameter error. -/
theorem c2_missing_path_param_witness :
    (gs "regionId" ∈ (findMatches (gs "/region/\x7bregionId\x7d")).map
      (fun m => trimRightBrace (trimLeftBrace m))) ∧
    (jobjLookup (gs "regionId") (jobj [(gs "name", .str (gs "x"))]) = none) ∧
    ∃ f, jobjLookup f (jobj [(gs "name", .str (gs "x"))]) = none ∧
      f ∈ (findMatches (gs "/region/\x7bregionId\x7d")).map
        (fun m => trimRightBrace (trimLeftBrace m)) ∧
      WithoutBodyBuilder.BuildURL [] (gs "/region/\x7bregionId\x7d")
          (jobj [(gs "name", .str (gs "x"))])
        = ([], some (gs "Can not find path parameter: " ++ f)) ∧
      WithBodyBuilder.BuildURL (gs "/region/\x7bregionId\x7d")
          (jobj [(gs "name", .str (gs "x"))])
        = ([], some (gs "Can not find path parameter: " ++ f)) :=
  ⟨by decide, by rfl,
   c2_missing_path_param [] (gs "/region/\x7bregionId\x7d")
     (jobj [(gs "name", .str (gs "x"))]) (gs "regionId") (by decide) (by rfl)⟩

/-- C3 counterexample: the body-bearing builder retains a null-valued field.
The bag `\x7b"name":"x","desc":null\x7d` marshals to `\x7b"desc":null,"name":"x"\x7d`:
`desc` is still among the top-level keys of the body, so the claim that a null
field "is not retained in the body-bearing builder's BuildBody output" is
false. -/
theorem c3_null_counterexample :
    WithBodyBuilder.BuildBody []
        (jobj [(gs "name", .str (gs "x")), (gs "desc", .null)])
      = (gs "\x7b\"desc\":null,\"name\":\"x\"\x7d", none) ∧
    gs "desc" ∈ jobjKeys (removeBaseFields []
        (jobj [(gs "name", .str (gs "x")), (gs "desc", .null)])) :=
  ⟨by decide, by decide⟩

/-- A null entry contributes nothing to the flattened query pairs. -/
theorem accessMap_null_entry (base : List GoStr) (url k : GoStr) (pre : GoStr) :
    accessMap base (.cons k JVal.null .nil) url pre [] = [] := by
  by_cases hig : shouldIgnoreField base url k = true
  · rw [accessMap_cons_ignored hig, accessMap_nil]
  · rw [accessMap_cons_null hig, accessMap_nil]

/-- A surviving entry is still found after base-field removal. -/
theorem jobjLookup_removeBaseFields (base : List GoStr) (k : GoStr) (v : JVal) :
    ∀ (pre : List (GoStr × JVal)) (post : List (GoStr × JVal)),
      includes base k = false → k ∉ pre.map Prod.fst →
      jobjLookup k (removeBaseFields base (jobj (pre ++ (k, v) :: post)))
        = some v := by
  intro pre
  induction pre with
  | nil =>
    intro post hnb _
    have hnb' : ¬includes base k = true := by rw [hnb]; exact Bool.false_ne_true
    simp [jobj, removeBaseFields, hnb', jobjLookup]
  | cons p pre' ih =>
    intro post hnb hnp
    obtain ⟨k', v'⟩ := p
    have hk : ¬k' = k := by
      intro e
      exact hnp (e ▸ List.mem_map_of_mem Prod.fst (List.mem_cons_self _ _))
    have hnp' : k ∉ pre'.map Prod.fst := fun m => hnp (List.mem_cons_of_mem _ m)
    rw [show jobj (((k', v') :: pre') ++ (k, v) :: post)
          = .cons k' v' (jobj (pre' ++ (k, v) :: post)) from rfl]
    by_cases hb : includes base k' = true
    · simp only [removeBaseFields, hb, if_true, ite_true]
      exact ih post hnb hnp'
    · simp only [removeBaseFields, hb, if_false, ite_false, jobjLookup, hk]
      exact ih post hnb hnp'

/-- C3 amended: null-valued fields are never emitted in the bodyless
builder's query string, but the body-bearing builder retains them: after
base-field removal the key still maps to JSON null in the marshalled body. -/
theorem c3_null_amended (base : List GoStr) (url k : GoStr)
    (pre post : List (GoStr × JVal))
    (hnb : includes base k = false)
    (hnp : k ∉ pre.map Prod.fst) :
    buildQueryParams base (jobj (pre ++ (k, JVal.null) :: post)) url
      = buildQueryParams base (jobj (pre ++ post)) url ∧
    jobjLookup k (removeBaseFields base (jobj (pre ++ (k, JVal.null) :: post)))
      = some JVal.null := by
  constructor
  · unfold buildQueryParams
    rw [accessMap_jobj_append, accessMap_jobj_append]
    rw [show jobj ((k, JVal.null) :: post) = .cons k JVal.null (jobj post) from rfl]
    rw [accessMap_cons_decomp, accessMap_null_entry]
    simp
  · exact jobjLookup_removeBaseFields base k JVal.null pre post hnb hnp

/-- The two halves of a split only use characters of the input. -/
theorem splitAtFirst_subset (c : Char) :
    ∀ s : GoStr, (∀ d ∈ (splitAtFirst c s).1, d ∈ s) ∧
      (∀ d ∈ (splitAtFirst c s).2, d ∈ s) := by
  intro s
  induction s with
  | nil => constructor <;> intro d h <;> simp [splitAtFirst] at h
  | cons x xs ih =>
    by_cases hx : x = c
    · constructor
      · intro d h; simp [splitAtFirst, hx] at h
      · intro d h
        simp only [splitAtFirst, hx, if_pos rfl] at h
        exact List.mem_cons_of_mem _ h
    · constructor
      · intro d h
        simp only [splitAtFirst, hx, if_false, ite_false] at h
        rcases List.mem_cons.mp h with e | h'
        · exact e ▸ List.mem_cons_self _ _
        · exact List.mem_cons_of_mem _ (ih.1 d h')
      · intro d h
        simp only [splitAtFirst, hx, if_false, ite_false] at h
        exact List.mem_cons_of_mem _ (ih.2 d h)

/-- Replacement preserves the absence of a character that is absent from both
the subject and the replacement. -/
theorem replaceAll_not_mem {c : Char} {s pat rep : GoStr}
    (hs : c ∉ s) (hrep : c ∉ rep) : c ∉ replaceAll s pat rep := by
  unfold replaceAll
  by_cases hp : pat = []
  · simp [hp, hs]
  · simp only [hp, if_false, ite_false]
    have : ∀ (fuel : Nat) (t : GoStr), c ∉ t → c ∉ replaceAllGo pat rep fuel t := by
      intro fuel
      induction fuel with
      | zero =>
        intro t ht
        cases t with
        | nil => simp [replaceAllGo]
        | cons y ys => exact ht
      | succ n ih =>
        intro t ht
        cases t with
        | nil => simp [replaceAllGo]
        | cons y ys =>
          by_cases hm : startsWithStr pat (y :: ys) = true
          · simp only [replaceAllGo, hm, if_true, ite_true]
            intro hmem
            rcases List.mem_append.mp hmem with h | h
            · exact hrep h
            · exact ih _ (fun m => ht (List.mem_of_mem_drop m)) h
          · simp only [replaceAllGo, hm, if_false, ite_false]
            intro hmem
            rcases List.mem_cons.mp hmem with e | h
            · exact ht (e ▸ List.mem_cons_self _ _)
            · exact ih ys (fun m => ht (List.mem_cons_of_mem _ m)) h
    exact this s.length s hs

/-- A hex digit produced by `hexUpper` is a digit or an uppercase A–F. -/
theorem hexUpper_mem (n : Nat) :
    hexUpper n ∈ gs "0123456789ABCDEF" ∨ hexUpper n = '0' := by
  unfold hexUpper
  generalize gs "0123456789ABCDEF" = l
  induction l generalizing n with
  | nil => right; simp [List.getD]
  | cons x xs ih =>
    cases n with
    | zero => left; simp [List.getD]
    | succ m =>
      rcases ih m with h | h
      · left
        simpa [List.getD] using List.mem_cons_of_mem x (by simpa [List.getD] using h)
      · right
        simpa [List.getD] using h

/-- A percent escape never contains `?`. -/
theorem percentHex_no_qmark (c : Char) : '?' ∉ percentHex c := by
  intro h
  rcases List.mem_cons.mp h with e | h
  · cases e
  · have hd : ∀ n : Nat, ¬hexUpper n = '?' := by
      intro n e
      rcases hexUpper_mem n with hm | hm
      · rw [e] at hm; revert hm; decide
      · rw [e] at hm; cases hm
    rcases List.mem_cons.mp h with e | h
    · exact hd _ e.symm
    · rcases List.mem_cons.mp h with e | h
      · exact hd _ e.symm
      · cases h

/-- The escaped path never contains `?`. -/
theorem EscapePath_no_qmark (p : GoStr) (b : Bool) : '?' ∉ EscapePath p b := by
  induction p with
  | nil => simp [EscapePath]
  | cons x xs ih =>
    rw [EscapePath_cons]
    intro h
    rcases List.mem_append.mp h with h | h
    · by_cases hc : (queryNoEscape x || (x = '/' && !b)) = true
      · rw [if_pos hc] at h
        rcases List.mem_cons.mp h with e | h'
        · rw [← e] at hc
          exact absurd hc (by cases b <;> decide)
        · cases h'
      · rw [if_neg hc] at h
        exact percentHex_no_qmark x h
    · exact ih h

/-- Every top-level key surviving base-field removal is outside the base set. -/
theorem jobjKeys_removeBaseFields (base : List GoStr) :
    ∀ (entries : List (GoStr × JVal)) (k : GoStr),
      k ∈ jobjKeys (removeBaseFields base (jobj entries)) →
      includes base k = false := by
  intro entries
  induction entries with
  | nil => intro k h; cases h
  | cons p rest ih =>
    obtain ⟨k', v'⟩ := p
    intro k h
    rw [show jobj ((k', v') :: rest) = .cons k' v' (jobj rest) from rfl] at h
    by_cases hb : includes base k' = true
    · rw [show removeBaseFields base (.cons k' v' (jobj rest))
            = removeBaseFields base (jobj rest) from by
          simp [removeBaseFields, hb]] at h
      exact ih k h
    · rw [show removeBaseFields base (.cons k' v' (jobj rest))
            = .cons k' v' (removeBaseFields base (jobj rest)) from by
          simp [removeBaseFields, hb]] at h
      rcases List.mem_cons.mp h with e | h'
      · subst e
        exact Bool.not_eq_true _ ▸ hb
      · exact ih k h'

/-- A successful lookup comes from an entry of the bag. -/
theorem jobjLookup_mem {k : GoStr} {v : JVal} :
    ∀ {entries : List (GoStr × JVal)},
      jobjLookup k (jobj entries) = some v → (k, v) ∈ entries := by
  intro entries
  induction entries with
  | nil => intro h; cases h
  | cons p rest ih =>
    obtain ⟨k', v'⟩ := p
    intro h
    rw [show jobj ((k', v') :: rest) = .cons k' v' (jobj rest) from rfl] at h
    by_cases hk : k' = k
    · subst hk
      rw [show jobjLookup k' (.cons k' v' (jobj rest)) = some v' from by
        simp [jobjLookup]] at h
      injection h with h
      subst h
      exact List.mem_cons_self _ _
    · simp only [jobjLookup, hk, if_false, ite_false] at h
      exact List.mem_cons_of_mem _ (ih h)

/-- Parsing a `?`-free URL yields an empty raw query component. -/
theorem urlParse_rawQuery_nil {s : GoStr} (h : '?' ∉ s) :
    ∀ pr, urlParse s = some pr → pr.2 = [] := by
  intro pr hp
  unfold urlParse at hp
  by_cases hctl : s.any isCtlChar = true
  · rw [if_pos hctl] at hp; cases hp
  · rw [if_neg hctl] at hp
    simp only [] at hp
    have hs1 : '?' ∉ (splitAtFirst '#' s).1 :=
      fun m => h ((splitAtFirst_subset '#' s).1 '?' m)
    rw [splitAtFirst_not_mem hs1] at hp
    cases hq2 : pathUnescape (splitAtFirst '#' s).1 with
    | none => rw [hq2] at hp; cases hp
    | some p2 =>
      rw [hq2] at hp
      simp only [Option.map_some', Option.some.injEq] at hp
      rw [← hp]

/-- The substitution loop keeps the URL free of `?` when the bag's values are. -/
theorem replLoop_no_qmark {entries : List (GoStr × JVal)}
    (hq : ∀ p ∈ entries, '?' ∉ goV p.2) :
    ∀ (ms : List GoStr) (url : GoStr), '?' ∉ url →
      '?' ∉ (replLoop ms url (jobj entries)).1 := by
  intro ms
  induction ms with
  | nil => intro url h; exact h
  | cons m0 rest ih =>
    intro url h
    cases hl : jobjLookup (trimRightBrace (trimLeftBrace m0)) (jobj entries) with
    | none => simp [replLoop, hl]
    | some v =>
      simp only [replLoop, hl]
      exact ih _ (replaceAll_not_mem h (hq _ (jobjLookup_mem hl)))

/-- C4 counterexample: a value containing `&` does not survive the round
trip. With bag `\x7b"name":"a&b"\x7d` and template `/x`, the bodyless builder
returns `/x?b=&name=a` — the raw value was joined unescaped, so the query
parser split it at the `&` — and standard re-parsing yields `a`, not the
original `a&b`. -/
theorem c4_ampersand_counterexample :
    WithoutBodyBuilder.BuildURL [] (gs "/x") (jobj [(gs "name", .str (gs "a&b"))])
      = (gs "/x?b=&name=a", none) ∧
    reparseQueryGet (gs "/x?b=&name=a") (gs "name") = some (gs "a") ∧
    gs "a" ≠ gs "a&b" :=
  ⟨by decide, by decide, by decide⟩

/-- C4 amended: for a bag of string fields with distinct non-empty
alphanumeric keys not in the base set, values over alphanumerics and spaces,
and a plain placeholder-free template, the bodyless builder succeeds, a field
whose value contains a space appears escaped (`key=queryEscape value`, the
space encoded as `+`) in the returned URL, and standard re-parsing of that URL
yields back the original value. (Per the counterexample, this fails for
values containing `&`, which are split by the query parser.) -/
theorem c4_space_roundtrip (base : List GoStr) (url : GoStr)
    (entries : List (GoStr × GoStr)) (k v : GoStr)
    (hurl : ∀ c ∈ url, c ∈ pathPlainChars)
    (hkeys : ∀ p ∈ entries, p.1 ≠ [] ∧ ∀ c ∈ p.1, c ∈ alnumChars)
    (hvals : ∀ p ∈ entries, ∀ c ∈ p.2, c ∈ ' ' :: alnumChars)
    (hbase : ∀ p ∈ entries, p.1 ∉ base)
    (hnd : (entries.map Prod.fst).Nodup)
    (hmem : (k, v) ∈ entries)
    (hsp : ' ' ∈ v) :
    (WithoutBodyBuilder.BuildURL base url (jobj (strEntries entries))).2 = none ∧
    containsStr
      (WithoutBodyBuilder.BuildURL base url (jobj (strEntries entries))).1
      (k ++ '=' :: queryEscape v) = true ∧
    reparseQueryGet
      (WithoutBodyBuilder.BuildURL base url (jobj (strEntries entries))).1 k
      = some v := by
  -- character-class facts, all decidable over the concrete alphabets
  have hplainB : ∀ c ∈ pathPlainChars, ¬c = '\x7b' := by decide
  have halnum : ∀ c ∈ alnumChars, ¬c = '=' ∧ ¬c = ';' ∧ ¬c = '%' ∧ ¬c = '+' ∧
      ¬c = '&' ∧ ¬c = '#' ∧ isCtlChar c = false ∧ queryNoEscape c = true := by
    decide
  have hvalc : ∀ c ∈ (' ' :: alnumChars), ¬c = ';' ∧ ¬c = '%' ∧ ¬c = '+' ∧
      ¬c = '&' ∧ ¬c = '#' ∧ isCtlChar c = false ∧
      (queryNoEscape c = true ∨ c = ' ') := by decide
  have hencc : ∀ c ∈ ('+' :: alnumChars), ¬c = ';' ∧ ¬c = '&' ∧ ¬c = '#' ∧
      isCtlChar c = false := by decide
  have hbrace : '\x7b' ∉ url := fun m => hplainB _ (hurl _ m) rfl
  -- single-field derived facts
  have hkchars : ∀ p ∈ entries, ∀ c ∈ p.1, c ∈ alnumChars :=
    fun p hp => (hkeys p hp).2
  have hkeq : ∀ p ∈ entries, '=' ∉ p.1 :=
    fun p hp m => (halnum _ (hkchars p hp _ m)).1 rfl
  have hksemi : ∀ p ∈ entries, ';' ∉ p.1 :=
    fun p hp m => (halnum _ (hkchars p hp _ m)).2.1 rfl
  have hkdec : ∀ p ∈ entries, queryUnescape p.1 = some p.1 := fun p hp =>
    queryUnescape_id (fun m => (halnum _ (hkchars p hp _ m)).2.2.1 rfl)
      (fun m => (halnum _ (hkchars p hp _ m)).2.2.2.1 rfl)
  have hvsemi : ∀ p ∈ entries, ';' ∉ p.2 :=
    fun p hp m => (hvalc _ (hvals p hp _ m)).1 rfl
  have hvdec : ∀ p ∈ entries, queryUnescape p.2 = some p.2 := fun p hp =>
    queryUnescape_id (fun m => (hvalc _ (hvals p hp _ m)).2.1 rfl)
      (fun m => (hvalc _ (hvals p hp _ m)).2.2.1 rfl)
  -- no field is ignored
  have hig : ∀ p ∈ entries, shouldIgnoreField base url p.1 = false := by
    intro p hp
    unfold shouldIgnoreField
    rw [containsStr_eq_false (List.mem_append.mpr (Or.inl (List.mem_cons_self _ _)))
        hbrace,
      includes_eq_false_of_not_mem (hbase p hp)]
    rfl
  -- the flattened query
  have hqp : buildQueryParams base (jobj (strEntries entries)) url
      = joinSep ['&'] (entries.map (fun p => p.1 ++ '=' :: p.2)) := by
    unfold buildQueryParams
    rw [accessMap_strEntries base entries url [] hig]
    simp only [List.nil_append]
  have hentne : entries ≠ [] := List.ne_nil_of_mem hmem
  have hpiece_amp : ∀ x ∈ entries.map (fun p => p.1 ++ '=' :: p.2), '&' ∉ x := by
    intro x hx m
    rcases List.mem_map.mp hx with ⟨p, hp, e⟩
    rw [← e] at m
    rcases mem_piece m with m | m | m
    · exact (halnum _ (hkchars p hp _ m)).2.2.2.2.1 rfl
    · cases m
    · exact (hvalc _ (hvals p hp _ m)).2.2.2.1 rfl
  have hqpne : joinSep ['&'] (entries.map (fun p => p.1 ++ '=' :: p.2)) ≠ [] := by
    refine joinSep_ne_nil (by simpa using hentne) ?_
    intro x hx
    rcases List.mem_map.mp hx with ⟨p, hp, e⟩
    rw [← e]
    exact piece_ne_nil p.1 p.2
  -- the raw query characters are clean
  have hqpctl : ∀ c ∈ joinSep ['&'] (entries.map (fun p => p.1 ++ '=' :: p.2)),
      isCtlChar c = false ∧ ¬c = '#' := by
    intro c hc
    rcases mem_joinSep hc with h | ⟨x, hx, hcx⟩
    · rcases List.mem_cons.mp h with e | e
      · subst e; exact ⟨by decide, by decide⟩
      · cases e
    · rcases List.mem_map.mp hx with ⟨p, hp, e⟩
      rw [← e] at hcx
      rcases mem_piece hcx with m | m | m
      · exact ⟨(halnum _ (hkchars p hp _ m)).2.2.2.2.2.2.1,
          (halnum _ (hkchars p hp _ m)).2.2.2.2.2.1⟩
      · subst m; exact ⟨by decide, by decide⟩
      · exact ⟨(hvalc _ (hvals p hp _ m)).2.2.2.2.2.1,
          (hvalc _ (hvals p hp _ m)).2.2.2.2.1⟩
  -- the parsed values
  have hvals2 : parseQueryValues
      (joinSep ['&'] (entries.map (fun p => p.1 ++ '=' :: p.2)))
      = entries.map (fun p => (p.1, [p.2])) := by
    unfold parseQueryValues
    rw [splitOnChar_joinSep (by simpa using hentne) hpiece_amp]
    have := foldl_parseQueryStep (fun x => x) entries []
      (fun p hp => ⟨hkeq p hp, hksemi p hp, hvsemi p hp, hkdec p hp, hvdec p hp⟩)
      (by simpa using hnd)
    simpa using this
  -- the sorted, escaped encoding
  have hperm : (insortLe (fun a b => goStrLeB a.1 b.1)
      (entries.map (fun p => (p.1, [p.2])))).Perm
      (entries.map (fun p => (p.1, [p.2]))) := insortLe_perm _ _
  have hshape : ∀ kv ∈ insortLe (fun a b => goStrLeB a.1 b.1)
      (entries.map (fun p => (p.1, [p.2]))), ∃ x, kv.2 = [x] := by
    intro kv hkv
    rcases List.mem_map.mp (hperm.subset hkv) with ⟨p, _, e⟩
    exact ⟨p.2, by rw [← e]⟩
  have henc : valuesEncode (entries.map (fun p => (p.1, [p.2])))
      = joinSep ['&']
          ((insortLe (fun a b => goStrLeB a.1 b.1)
              (entries.map (fun p => (p.1, [p.2])))).map
            (fun kv => (kv.1, kv.2.headD [])) |>.map
            (fun p => p.1 ++ '=' :: queryEscape p.2)) := by
    unfold valuesEncode
    rw [flatMap_singleton _ hshape]
    rw [List.map_map]
    congr 1
    apply List.map_congr_left
    intro kv hkv
    rcases List.mem_map.mp (hperm.subset hkv) with ⟨p, hp, e⟩
    have hk1 : kv.1 = p.1 := by rw [← e]
    have : queryEscape kv.1 = kv.1 := by
      rw [hk1]
      exact queryEscape_id (fun c m => (halnum _ (hkchars p hp _ m)).2.2.2.2.2.2.2)
    simp only [Function.comp, this]
  -- the per-key view of the sorted encoding
  have hqsPerm : ((insortLe (fun a b => goStrLeB a.1 b.1)
      (entries.map (fun p => (p.1, [p.2])))).map
        (fun kv => (kv.1, kv.2.headD []))).Perm entries := by
    have h1 := hperm.map (fun kv : GoStr × List GoStr => (kv.1, kv.2.headD []))
    have h2 : (entries.map (fun p => (p.1, [p.2]))).map
        (fun kv : GoStr × List GoStr => (kv.1, kv.2.headD [])) = entries := by
      rw [List.map_map]
      have he : ((fun kv : GoStr × List GoStr => (kv.1, kv.2.headD []))
          ∘ fun p : GoStr × GoStr => (p.1, [p.2])) = id := by
        funext p
        rfl
      rw [he, List.map_id]
    rw [h2] at h1
    exact h1
  have hkv_qs : (k, v) ∈ (insortLe (fun a b => goStrLeB a.1 b.1)
      (entries.map (fun p => (p.1, [p.2])))).map
        (fun kv => (kv.1, kv.2.headD [])) := hqsPerm.mem_iff.mpr hmem
  have hqs_sub : ∀ p ∈ (insortLe (fun a b => goStrLeB a.1 b.1)
      (entries.map (fun p => (p.1, [p.2])))).map
        (fun kv => (kv.1, kv.2.headD [])), p ∈ entries :=
    fun p hp => hqsPerm.subset hp
  have hqs_nodup : (((insortLe (fun a b => goStrLeB a.1 b.1)
      (entries.map (fun p => (p.1, [p.2])))).map
        (fun kv => (kv.1, kv.2.headD []))).map Prod.fst).Nodup :=
    ((hqsPerm.map Prod.fst).nodup_iff).mpr (by exact hnd)
  -- the encoded pieces are clean
  have hpieces2_amp : ∀ x ∈ ((insortLe (fun a b => goStrLeB a.1 b.1)
      (entries.map (fun p => (p.1, [p.2])))).map
        (fun kv => (kv.1, kv.2.headD []))).map
          (fun p => p.1 ++ '=' :: queryEscape p.2), '&' ∉ x := by
    intro x hx m
    rcases List.mem_map.mp hx with ⟨p, hp, e⟩
    rw [← e] at m
    rcases mem_piece m with m | m | m
    · exact (halnum _ (hkchars p (hqs_sub p hp) _ m)).2.2.2.2.1 rfl
    · cases m
    · exact (hencc _ (queryEscape_chars (hvals p (hqs_sub p hp)) _ m)).2.1 rfl
  have hencclean : ∀ c ∈ joinSep ['&']
      (((insortLe (fun a b => goStrLeB a.1 b.1)
          (entries.map (fun p => (p.1, [p.2])))).map
            (fun kv => (kv.1, kv.2.headD []))).map
              (fun p => p.1 ++ '=' :: queryEscape p.2)),
      isCtlChar c = false ∧ ¬c = '#' := by
    intro c hc
    rcases mem_joinSep hc with h | ⟨x, hx, hcx⟩
    · rcases List.mem_cons.mp h with e | e
      · subst e; exact ⟨by decide, by decide⟩
      · cases e
    · rcases List.mem_map.mp hx with ⟨p, hp, e⟩
      rw [← e] at hcx
      rcases mem_piece hcx with m | m | m
      · exact ⟨(halnum _ (hkchars p (hqs_sub p hp) _ m)).2.2.2.2.2.2.1,
          (halnum _ (hkchars p (hqs_sub p hp) _ m)).2.2.2.2.2.1⟩
      · subst m; exact ⟨by decide, by decide⟩
      · exact ⟨(hencc _ (queryEscape_chars (hvals p (hqs_sub p hp)) _ m)).2.2.2,
          (hencc _ (queryEscape_chars (hvals p (hqs_sub p hp)) _ m)).2.2.1⟩
  have hencne : joinSep ['&']
      (((insortLe (fun a b => goStrLeB a.1 b.1)
          (entries.map (fun p => (p.1, [p.2])))).map
            (fun kv => (kv.1, kv.2.headD []))).map
              (fun p => p.1 ++ '=' :: queryEscape p.2)) ≠ [] := by
    refine joinSep_ne_nil ?_ ?_
    · intro e
      rw [List.map_eq_nil_iff] at e
      rw [e] at hkv_qs
      cases hkv_qs
    · intro x hx
      rcases List.mem_map.mp hx with ⟨p, _, e⟩
      rw [← e]
      exact piece_ne_nil p.1 (queryEscape p.2)
  -- the built URL
  have hmain : WithoutBodyBuilder.BuildURL base url (jobj (strEntries entries))
      = (url ++ '?' :: joinSep ['&']
          (((insortLe (fun a b => goStrLeB a.1 b.1)
              (entries.map (fun p => (p.1, [p.2])))).map
                (fun kv => (kv.1, kv.2.headD []))).map
                  (fun p => p.1 ++ '=' :: queryEscape p.2)), none) := by
    unfold WithoutBodyBuilder.BuildURL
    rw [show replaceUrlWithPathParam url (jobj (strEntries entries))
        = (url, none) from by
      unfold replaceUrlWithPathParam
      rw [findMatches_of_no_brace hbrace]
      rfl]
    simp only []
    rw [hqp, if_pos hqpne]
    rw [encodeUrl_plain_query url _ hurl (fun c m => (hqpctl c m).1)
      (fun m => (hqpctl '#' m).2 rfl)
      (by rw [hvals2, henc]; exact hencne)]
    rw [hvals2, henc]
  -- the re-parsed values of the built URL
  have hrep2 : parseQueryValues (joinSep ['&']
      (((insortLe (fun a b => goStrLeB a.1 b.1)
          (entries.map (fun p => (p.1, [p.2])))).map
            (fun kv => (kv.1, kv.2.headD []))).map
              (fun p => p.1 ++ '=' :: queryEscape p.2)))
      = ((insortLe (fun a b => goStrLeB a.1 b.1)
          (entries.map (fun p => (p.1, [p.2])))).map
            (fun kv => (kv.1, kv.2.headD []))).map
              (fun p => (p.1, [p.2])) := by
    unfold parseQueryValues
    rw [splitOnChar_joinSep (by
        intro e
        rw [List.map_eq_nil_iff] at e
        rw [e] at hkv_qs
        cases hkv_qs)
      hpieces2_amp]
    have := foldl_parseQueryStep queryEscape
      ((insortLe (fun a b => goStrLeB a.1 b.1)
        (entries.map (fun p => (p.1, [p.2])))).map
          (fun kv => (kv.1, kv.2.headD []))) []
      (fun p hp => ⟨hkeq p (hqs_sub p hp), hksemi p (hqs_sub p hp),
        fun m => (hencc _
          (queryEscape_chars (hvals p (hqs_sub p hp)) _ m)).1 rfl,
        hkdec p (hqs_sub p hp),
        queryUnescape_queryEscape (fun c m =>
          (hvalc _ (hvals p (hqs_sub p hp) _ m)).2.2.2.2.2.2)⟩)
      (by simpa using hqs_nodup)
    simpa using this
  refine ⟨?_, ?_, ?_⟩
  · rw [hmain]
  · rw [hmain]
    rcases joinSep_mem_parts (List.mem_map_of_mem
        (fun p => p.1 ++ '=' :: queryEscape p.2) hkv_qs) with ⟨a, b, hab⟩
    have hsplit : url ++ '?' :: joinSep ['&']
        (((insortLe (fun a b => goStrLeB a.1 b.1)
            (entries.map (fun p => (p.1, [p.2])))).map
              (fun kv => (kv.1, kv.2.headD []))).map
                (fun p => p.1 ++ '=' :: queryEscape p.2))
        = (url ++ '?' :: a) ++ (k ++ '=' :: queryEscape v) ++ b := by
      rw [hab]
      simp [List.append_assoc]
    rw [hsplit]
    exact containsStr_of_parts _ _ _
  · rw [hmain]
    unfold reparseQueryGet
    rw [urlParse_plain_query url _ hurl (fun c m => (hencclean c m).1)
      (fun m => (hencclean '#' m).2 rfl)]
    rw [show ((some (url, joinSep ['&']
        (((insortLe (fun a b => goStrLeB a.1 b.1)
            (entries.map (fun p => (p.1, [p.2])))).map
              (fun kv => (kv.1, kv.2.headD []))).map
                (fun p => p.1 ++ '=' :: queryEscape p.2)))).map
        (fun pr => valuesGet (parseQueryValues pr.2) k))
        = some (valuesGet (parseQueryValues (joinSep ['&']
          (((insortLe (fun a b => goStrLeB a.1 b.1)
              (entries.map (fun p => (p.1, [p.2])))).map
                (fun kv => (kv.1, kv.2.headD []))).map
                  (fun p => p.1 ++ '=' :: queryEscape p.2)))) k) from rfl]
    rw [hrep2]
    rw [valuesGet_of_mem
      (List.mem_map_of_mem (fun p => (p.1, [p.2])) hkv_qs)
      (by
        rw [List.map_map]
        have he : (Prod.fst ∘ fun p : GoStr × GoStr => (p.1, [p.2]))
            = Prod.fst := by
          funext p
          rfl
        rw [he]
        exact hqs_nodup)]
    rfl

/-- C4 amended witness at a concrete input: bag
`\x7b"name":"a b","zz":"q"\x7d` on template `/v1/x` yields
`/v1/x?name=a+b&zz=q`; the `name` value round-trips through the escaping. -/
theorem c4_space_roundtrip_witness :
    (∀ c ∈ gs "/v1/x", c ∈ pathPlainChars) ∧
    (∀ p ∈ [(gs "name", gs "a b"), (gs "zz", gs "q")],
      p.1 ≠ [] ∧ ∀ c ∈ p.1, c ∈ alnumChars) ∧
    (∀ p ∈ [(gs "name", gs "a b"), (gs "zz", gs "q")],
      ∀ c ∈ p.2, c ∈ ' ' :: alnumChars) ∧
    (([(gs "name", gs "a b"), (gs "zz", gs "q")].map Prod.fst).Nodup) ∧
    ((gs "name", gs "a b") ∈ [(gs "name", gs "a b"), (gs "zz", gs "q")]) ∧
    (' ' ∈ gs "a b") ∧
    ((WithoutBodyBuilder.BuildURL [] (gs "/v1/x")
        (jobj (strEntries [(gs "name", gs "a b"), (gs "zz", gs "q")]))).2 = none ∧
    containsStr
      (WithoutBodyBuilder.BuildURL [] (gs "/v1/x")
        (jobj (strEntries [(gs "name", gs "a b"), (gs "zz", gs "q")]))).1
      (gs "name" ++ '=' :: queryEscape (gs "a b")) = true ∧
    reparseQueryGet
      (WithoutBodyBuilder.BuildURL [] (gs "/v1/x")
        (jobj (strEntries [(gs "name", gs "a b"), (gs "zz", gs "q")]))).1
      (gs "name")
      = some (gs "a b")) :=
  ⟨by decide, by decide, by decide, by decide, by decide, by decide,
   c4_space_roundtrip [] (gs "/v1/x")
     [(gs "name", gs "a b"), (gs "zz", gs "q")] (gs "name") (gs "a b")
     (by decide) (by decide) (by decide) (by decide) (by decide) (by decide)
     (by decide)⟩

/-- C5 counterexample: with template `/x/\x7bid\x7d` and the valid bag
`\x7b"id":"a?b=c"\x7d`, the body-bearing builder's BuildURL returns
`/x/a?b=c`, which does contain a `?` query component — refuting the claim
that the output never contains `?` for every valid bag. -/
theorem c5_counterexample :
    WithBodyBuilder.BuildURL (gs "/x/\x7bid\x7d")
        (jobj [(gs "id", .str (gs "a?b=c"))])
      = (gs "/x/a?b=c", none) ∧
    '?' ∈ (WithBodyBuilder.BuildURL (gs "/x/\x7bid\x7d")
        (jobj [(gs "id", .str (gs "a?b=c"))])).1 :=
  ⟨by decide, by decide⟩

/-- C5 amended: the body-bearing builder's BuildBody output has no top-level
key from the reserved base-field set, and — provided the template and the
`%v` texts of the bag's values contain no `?` — its BuildURL output contains
no `?` query component. -/
theorem c5_amended (base : List GoStr) (url : GoStr)
    (entries : List (GoStr × JVal)) :
    (∀ k ∈ jobjKeys (removeBaseFields base (jobj entries)),
      includes base k = false) ∧
    ('?' ∉ url → (∀ p ∈ entries, '?' ∉ goV p.2) →
      '?' ∉ (WithBodyBuilder.BuildURL url (jobj entries)).1) := by
  refine ⟨jobjKeys_removeBaseFields base entries, ?_⟩
  intro hu hq
  unfold WithBodyBuilder.BuildURL
  cases hrep : replaceUrlWithPathParam url (jobj entries) with
  | mk replaced err =>
    cases err with
    | some e => simp
    | none =>
      simp only
      have hrep1 : '?' ∉ replaced := by
        have := replLoop_no_qmark hq (findMatches url) url hu
        unfold replaceUrlWithPathParam at hrep
        rw [hrep] at this
        exact this
      unfold encodeUrl
      cases hp : urlParse replaced with
      | none => simp
      | some pr =>
        simp only
        have hraw : pr.2 = [] := urlParse_rawQuery_nil hrep1 pr hp
        rw [hraw]
        rw [show parseQueryValues [] = [] from rfl]
        rw [show valuesEncode [] = [] from rfl]
        rw [if_neg (by simp)]
        exact EscapePath_no_qmark pr.1 false

/-- C5 amended witness at a concrete input: base set `[Version]`, template
`/x/\x7bid\x7d`, bag `\x7b"id":"ab","Version":"1"\x7d`. -/
theorem c5_amended_witness :
    ('?' ∉ gs "/x/\x7bid\x7d") ∧
    (∀ p ∈ [(gs "id", JVal.str (gs "ab")), (gs "Version", JVal.str (gs "1"))],
      '?' ∉ goV p.2) ∧
    (∀ k ∈ jobjKeys (removeBaseFields [gs "Version"]
        (jobj [(gs "id", JVal.str (gs "ab")), (gs "Version", JVal.str (gs "1"))])),
      includes [gs "Version"] k = false) ∧
    '?' ∉ (WithBodyBuilder.BuildURL (gs "/x/\x7bid\x7d")
        (jobj [(gs "id", JVal.str (gs "ab")), (gs "Version", JVal.str (gs "1"))])).1 :=
  ⟨by decide, by decide,
   (c5_amended [gs "Version"] (gs "/x/\x7bid\x7d")
     [(gs "id", JVal.str (gs "ab")), (gs "Version", JVal.str (gs "1"))]).1,
   (c5_amended [gs "Version"] (gs "/x/\x7bid\x7d")
     [(gs "id", JVal.str (gs "ab")), (gs "Version", JVal.str (gs "1"))]).2
     (by decide) (by decide)⟩

/-- C3 amended witness: bag `\x7b"name":"x","desc":null\x7d` yields query
`name=x` with no pair for `desc`, while the body keeps `desc` as null. -/
theorem c3_null_amended_witness :
    (includes [] (gs "desc") = false) ∧
    (gs "desc" ∉ [(gs "name", JVal.str (gs "x"))].map Prod.fst) ∧
    (buildQueryParams [] (jobj ([(gs "name", JVal.str (gs "x"))]
        ++ (gs "desc", JVal.null) :: [])) (gs "/x")
      = buildQueryParams [] (jobj ([(gs "name", JVal.str (gs "x"))] ++ [])) (gs "/x") ∧
    jobjLookup (gs "desc") (removeBaseFields []
        (jobj ([(gs "name", JVal.str (gs "x"))] ++ (gs "desc", JVal.null) :: [])))
      = some JVal.null) ∧
    buildQueryParams [] (jobj [(gs "name", JVal.str (gs "x")),
        (gs "desc", JVal.null)]) (gs "/x") = gs "name=x" :=
  ⟨by decide, by decide,
   c3_null_amended [] (gs "/x") (gs "desc") [(gs "name", JVal.str (gs "x"))] []
     (by decide) (by decide),
   by decide⟩



